import Mathlib

/-!
Shallow embedding of the three steganographic codecs of the repository
(`lsb_replacement.py`, `lsb_matching.py`, `hamming_code.py`).

Carriers are flat byte buffers (`List ℕ`, each entry a `uint8` value `< 256`),
exactly the `arr.reshape(-1)` view the Python code works on; the image file
I/O (`_open_rgb_bmp`, `Image.save`) is the external adapter the spec excludes
and is stripped, leaving the pure buffer-to-buffer transformations.
The embedding `rate` (a Python float) is modelled as a rational number;
`int(x)` on a nonnegative value is `⌊x⌋.toNat`.  Randomness in LSB Matching
is an explicit polarity oracle `pol : ℕ → Bool` giving the successive draws
of `_rng.integers(0, 2, ...)` (`true` = draw 1 = "+1").  Python exceptions
become an explicit error type.
-/

set_option maxHeartbeats 1000000
set_option maxRecDepth 100000
set_option synthInstance.maxHeartbeats 2000000
set_option synthInstance.maxSize 2000

namespace StegoLab

/-- Error taxonomy of the engines, named as in the specification: every
`raise` in the source is mapped to the taxonomy entry describing it
(all Python exceptions here are `ValueError`s except the `OverflowError`
that `int.to_bytes(4, "little")` raises on a length `≥ 2^32`, which is the
spec's `PayloadTooLarge` failure). -/
inductive StegoError where
  | rateOutOfRange
  | payloadTooLarge
  | capacityExceeded
  | magicMismatch
  | truncatedHeader
  | truncatedPayload
  | misalignedBits
  deriving DecidableEq, Repr

/-- One byte through `np.unpackbits`: its 8 bits, most significant first. -/
def bitsOfByte (b : ℕ) : List ℕ :=
  (List.range 8).map fun i => (b >>> (7 - i)) &&& 1

/-- Models `_bits_from_bytes`: `np.unpackbits(np.frombuffer(data, dtype=np.uint8))`. -/
def bitsFromBytes (data : List ℕ) : List ℕ :=
  data.flatMap bitsOfByte

/-- One step of `np.packbits`: one byte from 8 bits, most significant first. -/
def byteOfBits (bits : List ℕ) : ℕ :=
  bits.foldl (fun a b => 2 * a + b) 0

/-- Models `np.packbits`: pack the bit list into bytes, 8 bits per byte, MSB first.
(The callers guard the length to be a multiple of 8, so the under-8 remainder
case is unreachable there.) -/
def packBits : List ℕ → List ℕ
  | b0 :: b1 :: b2 :: b3 :: b4 :: b5 :: b6 :: b7 :: rest =>
      byteOfBits [b0, b1, b2, b3, b4, b5, b6, b7] :: packBits rest
  | _ => []

/-- Models `_bytes_from_bits`: raises on misaligned input, else `np.packbits`. -/
def bytesFromBits (bits : List ℕ) : Except StegoError (List ℕ) :=
  if bits.length % 8 ≠ 0 then .error .misalignedBits
  else .ok (packBits bits)

/-- Value of `n.to_bytes(4, "little")` for `n < 2^32`: the 4 little-endian
base-256 digits of `n`. -/
def le4 (n : ℕ) : List ℕ :=
  [n % 256, n / 256 % 256, n / 256 / 256 % 256, n / 256 / 256 / 256 % 256]

/-- Models `n.to_bytes(4, "little")` with its `OverflowError` on `n ≥ 2^32`. -/
def toBytesLE4 (n : ℕ) : Except StegoError (List ℕ) :=
  if 2 ^ 32 ≤ n then .error .payloadTooLarge else .ok (le4 n)

/-- Models `int.from_bytes(bs, "little")` on a 4-byte string. -/
def fromBytesLE (bs : List ℕ) : ℕ :=
  bs.getD 0 0 + 256 * bs.getD 1 0 + 65536 * bs.getD 2 0 + 16777216 * bs.getD 3 0

/-- Magic `b"LSBR"`. -/
def MAGIC_LSBR : List ℕ := [76, 83, 66, 82]

/-- Magic `b"LSBM"`. -/
def MAGIC_LSBM : List ℕ := [76, 83, 66, 77]

/-- Magic `b"HAMM"`. -/
def MAGIC_HAMM : List ℕ := [72, 65, 77, 77]

/-- Constant `_MAGIC_BITS` of `lsb_replacement.py`. -/
def MAGIC_BITS_LSBR : List ℕ := bitsFromBytes MAGIC_LSBR

/-- Constant `_MAGIC_BITS` of `lsb_matching.py`. -/
def MAGIC_BITS_LSBM : List ℕ := bitsFromBytes MAGIC_LSBM

/-- Constant `_MAGIC_BITS` of `hamming_code.py`. -/
def MAGIC_BITS_HAMM : List ℕ := bitsFromBytes MAGIC_HAMM

/-- Python `int(q)` for the nonnegative values arising here. -/
def intFloor (q : ℚ) : ℕ := ⌊q⌋.toNat

/-- Bit capacity of both LSB engines: `int(len(flat) * rate)`. -/
def lsbCapacityBits (len : ℕ) (rate : ℚ) : ℕ :=
  intFloor ((len : ℚ) * rate)

/-- Block count `usable_blocks = int(total_blocks * rate)` with
`total_blocks = len // 15` (Hamming engine). -/
def hammingUsableBlocks (len : ℕ) (rate : ℚ) : ℕ :=
  intFloor (((len / 15 : ℕ) : ℚ) * rate)

/-- Capacity `capacity_bits = usable_blocks * 4` (Hamming engine). -/
def hammingCapacityBits (len : ℕ) (rate : ℚ) : ℕ :=
  hammingUsableBlocks len rate * 4

/-- All entries are byte values. -/
abbrev ByteList (l : List ℕ) : Prop := ∀ b ∈ l, b < 256

/-- All entries are bits. -/
abbrev BitList (l : List ℕ) : Prop := ∀ b ∈ l, b < 2

/-!  LSB Replacement engine (`lsb_replacement.py`). -/

/-- The write loop of `lsb_replacement.embed`:
`stego_flat[:n] &= 0xFE; stego_flat[:n] |= full_bits` — clear bit 0 of each
of the first `n` carrier bytes and OR in the frame bit. -/
def writeLSBs : List ℕ → List ℕ → List ℕ
  | flat, [] => flat
  | [], _ :: _ => []
  | b :: flat, bit :: bits => ((b &&& 0xFE) ||| bit) :: writeLSBs flat bits

/-- Models `lsb_replacement.embed` (lines 42-73), minus the image adapter: rate
check, capacity at rate, payload-size check, frame build, capacity check,
LSB overwrite of the first `len(full_bits)` bytes of a copy of the carrier. -/
def lsbrEmbed (flat payload : List ℕ) (rate : ℚ) : Except StegoError (List ℕ) :=
  if ¬(0 ≤ rate ∧ rate ≤ 1) then .error .rateOutOfRange
  else
    let maxPayloadBits := lsbCapacityBits flat.length rate
    if 2 ^ 32 ≤ payload.length then .error .payloadTooLarge
    else
      let full := MAGIC_LSBR ++ le4 payload.length ++ payload
      let fullBits := bitsFromBytes full
      if maxPayloadBits < fullBits.length then .error .capacityExceeded
      else .ok (writeLSBs flat fullBits)

/-- The common extraction procedure of `lsb_replacement.extract` and
`lsb_matching.extract` (textually identical up to the magic constant):
read bit 0 of the addressed prefix, check magic, read the 32-bit
little-endian length, slice exactly that many payload bits. -/
def lsbExtract (magicBits : List ℕ) (flat : List ℕ) (rate : ℚ) :
    Except StegoError (List ℕ) :=
  if ¬(0 < rate ∧ rate ≤ 1) then .error .rateOutOfRange
  else
    let maxBits := lsbCapacityBits flat.length rate
    if maxBits < magicBits.length + 32 then .error .truncatedHeader
    else if (flat.take magicBits.length).map (· &&& 1) ≠ magicBits then
      .error .magicMismatch
    else
      match bytesFromBits (((flat.drop magicBits.length).take 32).map (· &&& 1)) with
      | .error e => .error e
      | .ok headerBytes =>
        let payloadLen := fromBytesLE headerBytes
        if maxBits < magicBits.length + 32 + payloadLen * 8 then .error .truncatedPayload
        else
          bytesFromBits
            (((flat.drop (magicBits.length + 32)).take (payloadLen * 8)).map (· &&& 1))

/-- Models `lsb_replacement.extract` (lines 76-101). -/
def lsbrExtract (flat : List ℕ) (rate : ℚ) : Except StegoError (List ℕ) :=
  lsbExtract MAGIC_BITS_LSBR flat rate

/-!  LSB Matching engine (`lsb_matching.py`). -/

/-- Per-byte adjustment of a mismatching carrier byte in
`lsb_matching.embed` (lines 69-76): a random ±1 delta, the hard boundary
overrides at 0 and 255, then `(vals + deltas) & 0xFF` in int16 arithmetic. -/
def lsbmAdjust (b : ℕ) (plus : Bool) : ℕ :=
  let d0 : ℤ := if plus then 1 else -1
  let d : ℤ := if b = 0 ∧ d0 = -1 then 1 else if b = 255 ∧ d0 = 1 then -1 else d0
  (((b : ℤ) + d) % 256).toNat

/-- The vectorised write of `lsb_matching.embed`: bytes whose bit 0 already
equals the target bit are untouched; each mismatching byte consumes the next
random polarity draw `pol k` and is adjusted by `lsbmAdjust`. -/
def lsbmApply : List ℕ → List ℕ → (ℕ → Bool) → ℕ → List ℕ
  | flat, [], _, _ => flat
  | [], _ :: _, _, _ => []
  | b :: flat, bit :: bits, pol, k =>
    if b &&& 1 = bit then b :: lsbmApply flat bits pol k
    else lsbmAdjust b (pol k) :: lsbmApply flat bits pol (k + 1)

/-- Models `lsb_matching.embed` (lines 39-79), with the random generator passed as
the explicit draw sequence `pol`. -/
def lsbmEmbed (flat payload : List ℕ) (rate : ℚ) (pol : ℕ → Bool) :
    Except StegoError (List ℕ) :=
  if ¬(0 ≤ rate ∧ rate ≤ 1) then .error .rateOutOfRange
  else
    let capacityBits := lsbCapacityBits flat.length rate
    if 2 ^ 32 ≤ payload.length then .error .payloadTooLarge
    else
      let stream := MAGIC_LSBM ++ le4 payload.length ++ payload
      let bits := bitsFromBytes stream
      if capacityBits < bits.length then .error .capacityExceeded
      else .ok (lsbmApply flat bits pol 0)

/-- Models `lsb_matching.extract` (lines 82-107). -/
def lsbmExtract (flat : List ℕ) (rate : ℚ) : Except StegoError (List ℕ) :=
  lsbExtract MAGIC_BITS_LSBM flat rate

/-!  Hamming(15,11) syndrome engine (`hamming_code.py`). -/

/-- The parity-check matrix `H`: entry at row `r`, column `j` is
`((j + 1) >> r) & 1`. -/
def H (r j : ℕ) : ℕ := ((j + 1) >>> r) &&& 1

/-- Low bits of a block: `block & 1`. -/
def coverBits (block : List ℕ) : List ℕ := block.map (· &&& 1)

/-- Row `r` of `(H @ cover_bits) & 1`. -/
def synBit (r : ℕ) (c : List ℕ) : ℕ :=
  (∑ j ∈ Finset.range 15, H r j * c.getD j 0) % 2

/-- Vector `syndrome = (H @ cover_bits) & 1`, 4 bits. -/
def syndrome (c : List ℕ) : List ℕ :=
  (List.range 4).map fun r => synBit r c

/-- Value `diff[0] | (diff[1] << 1) | (diff[2] << 2) | (diff[3] << 3)`. -/
def nibbleVal (d : List ℕ) : ℕ :=
  d.getD 0 0 ||| (d.getD 1 0 <<< 1) ||| (d.getD 2 0 <<< 2) ||| (d.getD 3 0 <<< 3)

/-- One iteration of the block loop of `hamming_code.embed` (lines 67-77):
compute the syndrome of the block's cover bits, XOR against the target
nibble `m`, and if the difference is nonzero flip bit 0 of the block byte
at position `diff_val - 1`. -/
def hammingEmbedBlock (block m : List ℕ) : List ℕ :=
  let syn := syndrome (coverBits block)
  let diff := List.zipWith (fun a b => a ^^^ b) syn m
  let diffVal := nibbleVal diff
  if diffVal = 0 then block
  else block.set (diffVal - 1) (block.getD (diffVal - 1) 0 ^^^ 1)

/-- The block loop of `hamming_code.embed`: successive disjoint 15-byte
blocks of the carrier each absorb one nibble; the rest of the carrier is
untouched. -/
def hammingEmbedBlocks : List ℕ → List (List ℕ) → List ℕ
  | flat, [] => flat
  | flat, m :: ms =>
      hammingEmbedBlock (flat.take 15) m ++ hammingEmbedBlocks (flat.drop 15) ms

/-- Models `bits.reshape(-1, 4)`: split the (4-aligned) bit stream into nibbles. -/
def toNibbles : List ℕ → List (List ℕ)
  | b0 :: b1 :: b2 :: b3 :: rest => [b0, b1, b2, b3] :: toNibbles rest
  | _ => []

/-- The zero-padding step of `hamming_code.embed` (lines 60-62) that would
extend the bit stream to a multiple of 4. -/
def hammingPad (bits : List ℕ) : List ℕ :=
  if bits.length % 4 ≠ 0 then bits ++ List.replicate (4 - bits.length % 4) 0
  else bits

/-- Models `hamming_code.embed` (lines 42-80), minus the image adapter.  The
`enumerate` loop breaks at `usable_blocks`, i.e. processes the first
`usable_blocks` nibbles. -/
def hammingEmbed (flat payload : List ℕ) (rate : ℚ) : Except StegoError (List ℕ) :=
  if ¬(0 ≤ rate ∧ rate ≤ 1) then .error .rateOutOfRange
  else
    let usableBlocks := hammingUsableBlocks flat.length rate
    let capacityBits := usableBlocks * 4
    match toBytesLE4 payload.length with
    | .error e => .error e
    | .ok header =>
      let stream := MAGIC_HAMM ++ header ++ payload
      let bits := bitsFromBytes stream
      if capacityBits < bits.length then .error .capacityExceeded
      else
        let nibbles := toNibbles (hammingPad bits)
        .ok (hammingEmbedBlocks flat (nibbles.take usableBlocks))

/-- The syndrome-reading loop of `hamming_code.extract` (lines 92-97):
the syndromes of the first `count` 15-byte blocks, concatenated. -/
def readSyndromes : List ℕ → ℕ → List ℕ
  | _, 0 => []
  | flat, k + 1 => syndrome (coverBits (flat.take 15)) ++ readSyndromes (flat.drop 15) k

/-- Models `hamming_code.extract` (lines 83-117). -/
def hammingExtract (flat : List ℕ) (rate : ℚ) : Except StegoError (List ℕ) :=
  if ¬(0 < rate ∧ rate ≤ 1) then .error .rateOutOfRange
  else
    let usableBlocks := hammingUsableBlocks flat.length rate
    let bits := readSyndromes flat usableBlocks
    if bits.length < 32 + 32 then .error .truncatedHeader
    else if bits.take 32 ≠ MAGIC_BITS_HAMM then .error .magicMismatch
    else
      match bytesFromBits ((bits.drop 32).take 32) with
      | .error e => .error e
      | .ok lenBytes =>
        let payloadLen := fromBytesLE lenBytes
        if bits.length < 32 + 32 + payloadLen * 8 then .error .truncatedPayload
        else bytesFromBits ((bits.drop (32 + 32)).take (payloadLen * 8))

/-!  State-passing view of the three `embed`s, for the atomicity claim.

The imperative `embed`s hold the caller-visible carrier in `flat` and
allocate the output buffer only at `stego_flat = flat.copy()`, *after* the
last `raise`; every subsequent write targets `stego_flat`.  The state below
records both buffers, and each `...EmbedSt` replays the source line order:
each `raise` returns the state as it stood at that line. -/
structure EmbedState where
  flat : List ℕ
  stego : Option (List ℕ)

/-- Replays `lsb_replacement.embed` as a state transformer (the capacity
bound and frame bits are written inline). -/
def lsbrEmbedSt (s : EmbedState) (payload : List ℕ) (rate : ℚ) :
    Except StegoError Unit × EmbedState :=
  if ¬(0 ≤ rate ∧ rate ≤ 1) then (.error .rateOutOfRange, s)
  else if 2 ^ 32 ≤ payload.length then (.error .payloadTooLarge, s)
  else if lsbCapacityBits s.flat.length rate <
      (bitsFromBytes (MAGIC_LSBR ++ le4 payload.length ++ payload)).length then
    (.error .capacityExceeded, s)
  else (.ok (), { s with stego := some (writeLSBs s.flat
    (bitsFromBytes (MAGIC_LSBR ++ le4 payload.length ++ payload))) })

/-- Replays `lsb_matching.embed` as a state transformer (the capacity
bound and frame bits are written inline). -/
def lsbmEmbedSt (s : EmbedState) (payload : List ℕ) (rate : ℚ) (pol : ℕ → Bool) :
    Except StegoError Unit × EmbedState :=
  if ¬(0 ≤ rate ∧ rate ≤ 1) then (.error .rateOutOfRange, s)
  else if 2 ^ 32 ≤ payload.length then (.error .payloadTooLarge, s)
  else if lsbCapacityBits s.flat.length rate <
      (bitsFromBytes (MAGIC_LSBM ++ le4 payload.length ++ payload)).length then
    (.error .capacityExceeded, s)
  else (.ok (), { s with stego := some (lsbmApply s.flat
    (bitsFromBytes (MAGIC_LSBM ++ le4 payload.length ++ payload)) pol 0) })

/-- Replays `hamming_code.embed` as a state transformer (the capacity
bound, frame bits and nibbles are written inline). -/
def hammingEmbedSt (s : EmbedState) (payload : List ℕ) (rate : ℚ) :
    Except StegoError Unit × EmbedState :=
  if ¬(0 ≤ rate ∧ rate ≤ 1) then (.error .rateOutOfRange, s)
  else
    match toBytesLE4 payload.length with
    | .error e => (.error e, s)
    | .ok header =>
      if hammingUsableBlocks s.flat.length rate * 4 <
          (bitsFromBytes (MAGIC_HAMM ++ header ++ payload)).length then
        (.error .capacityExceeded, s)
      else (.ok (), { s with stego := some (hammingEmbedBlocks s.flat
        ((toNibbles (hammingPad (bitsFromBytes (MAGIC_HAMM ++ header ++ payload)))).take
          (hammingUsableBlocks s.flat.length rate))) })

/-!  Basic facts about the bit/byte primitives. -/

theorem bitsOfByte_eq (b : ℕ) :
    bitsOfByte b = [(b >>> 7) &&& 1, (b >>> 6) &&& 1, (b >>> 5) &&& 1,
      (b >>> 4) &&& 1, (b >>> 3) &&& 1, (b >>> 2) &&& 1, (b >>> 1) &&& 1,
      (b >>> 0) &&& 1] := rfl

theorem bitsOfByte_length (b : ℕ) : (bitsOfByte b).length = 8 := by
  simp [bitsOfByte]

theorem bitsOfByte_bits (b : ℕ) : BitList (bitsOfByte b) := by
  intro x hx
  simp only [bitsOfByte, List.mem_map, List.mem_range] at hx
  obtain ⟨i, _, rfl⟩ := hx
  have h : (b >>> (7 - i)) &&& 1 ≤ 1 := Nat.and_le_right
  omega

theorem bitsFromBytes_cons (b : ℕ) (t : List ℕ) :
    bitsFromBytes (b :: t) = bitsOfByte b ++ bitsFromBytes t := by
  simp [bitsFromBytes]

theorem bitsFromBytes_append (a b : List ℕ) :
    bitsFromBytes (a ++ b) = bitsFromBytes a ++ bitsFromBytes b := by
  simp [bitsFromBytes]

theorem bitsFromBytes_length (data : List ℕ) :
    (bitsFromBytes data).length = 8 * data.length := by
  induction data with
  | nil => rfl
  | cons b t ih =>
      rw [bitsFromBytes_cons]
      simp only [List.length_append, bitsOfByte_length, List.length_cons, ih]
      ring

theorem bitsFromBytes_bits (data : List ℕ) : BitList (bitsFromBytes data) := by
  intro x hx
  simp only [bitsFromBytes, List.mem_flatMap] at hx
  obtain ⟨b, _, hb⟩ := hx
  exact bitsOfByte_bits b x hb

theorem byteOfBits_bitsOfByte : ∀ b < 256, byteOfBits (bitsOfByte b) = b := by
  decide

theorem packBits_cons8 (x0 x1 x2 x3 x4 x5 x6 x7 : ℕ) (rest : List ℕ) :
    packBits (x0 :: x1 :: x2 :: x3 :: x4 :: x5 :: x6 :: x7 :: rest) =
      byteOfBits [x0, x1, x2, x3, x4, x5, x6, x7] :: packBits rest := rfl

theorem packBits_bitsFromBytes : ∀ bs : List ℕ, ByteList bs →
    packBits (bitsFromBytes bs) = bs := by
  intro bs
  induction bs with
  | nil => intro _; rfl
  | cons b t ih =>
      intro h
      have hb : b < 256 := h b (by simp)
      have ht : ByteList t := fun x hx => h x (by simp [hx])
      rw [bitsFromBytes_cons, bitsOfByte_eq]
      simp only [List.cons_append, List.nil_append]
      rw [packBits_cons8, ← bitsOfByte_eq, byteOfBits_bitsOfByte b hb, ih ht]

theorem bytesFromBits_bitsFromBytes (bs : List ℕ) (h : ByteList bs) :
    bytesFromBits (bitsFromBytes bs) = .ok bs := by
  rw [bytesFromBits, if_neg, packBits_bitsFromBytes bs h]
  simp [bitsFromBytes_length, Nat.mul_mod_right]

theorem le4_length (n : ℕ) : (le4 n).length = 4 := rfl

theorem le4_bytes (n : ℕ) : ByteList (le4 n) := by
  intro x hx
  simp only [le4, List.mem_cons, List.not_mem_nil, or_false] at hx
  rcases hx with rfl | rfl | rfl | rfl <;> omega

theorem fromBytesLE_le4 (n : ℕ) (h : n < 2 ^ 32) : fromBytesLE (le4 n) = n := by
  simp only [fromBytesLE, le4, List.getD_cons_zero, List.getD_cons_succ]
  omega

theorem toBytesLE4_ok (n : ℕ) (h : n < 2 ^ 32) : toBytesLE4 n = .ok (le4 n) := by
  rw [toBytesLE4, if_neg (by omega)]

/-!  Byte-level facts, settled by finite check over all byte values. -/

theorem lsbWriteByte_spec : ∀ b < 256, ∀ bit < 2,
    ((b &&& 0xFE) ||| bit) &&& 1 = bit ∧ ((b &&& 0xFE) ||| bit) < 256 := by
  decide

theorem lsbmAdjust_spec (plus : Bool) : ∀ b < 256,
    lsbmAdjust b plus &&& 1 = (b &&& 1) ^^^ 1 ∧ lsbmAdjust b plus < 256 ∧
    (lsbmAdjust b plus = b + 1 ∨ lsbmAdjust b plus + 1 = b) ∧
    (b = 0 → lsbmAdjust b plus = 1) ∧ (b = 255 → lsbmAdjust b plus = 254) := by
  cases plus <;> decide

theorem bit_neq_iff_xor_one : ∀ a < 2, ∀ c < 2, a ≠ c → c = a ^^^ 1 := by
  decide

/-!  Capacity-model facts. -/

theorem lsbCapacityBits_le (len : ℕ) (rate : ℚ) (h : rate ≤ 1) :
    lsbCapacityBits len rate ≤ len := by
  have h1 : (len : ℚ) * rate ≤ (len : ℚ) := by
    calc (len : ℚ) * rate ≤ (len : ℚ) * 1 :=
          mul_le_mul_of_nonneg_left h (by positivity)
    _ = (len : ℚ) := mul_one _
  have h2 : ⌊(len : ℚ) * rate⌋ ≤ ⌊(len : ℚ)⌋ := Int.floor_le_floor h1
  have h3 : ⌊(len : ℚ)⌋ = (len : ℤ) := Int.floor_natCast len
  simp only [lsbCapacityBits, intFloor]
  omega

theorem pos_of_intFloor_pos (q : ℚ) (h : 1 ≤ intFloor q) : 0 < q := by
  have h1 : 1 ≤ ⌊q⌋ := by simp only [intFloor] at h; omega
  have h2 : (⌊q⌋ : ℚ) ≤ q := Int.floor_le q
  have h3 : (1 : ℚ) ≤ (⌊q⌋ : ℚ) := by exact_mod_cast h1
  linarith

theorem rate_pos_of_lsbCapacity (len : ℕ) (rate : ℚ)
    (h : 1 ≤ lsbCapacityBits len rate) : 0 < rate := by
  have hq : 0 < (len : ℚ) * rate := pos_of_intFloor_pos _ h
  by_contra hr
  push_neg at hr
  have : (len : ℚ) * rate ≤ 0 := mul_nonpos_of_nonneg_of_nonpos (by positivity) hr
  linarith

/-!  Facts about the LSB Replacement write loop. -/

theorem writeLSBs_length : ∀ flat bits : List ℕ,
    (writeLSBs flat bits).length = flat.length := by
  intro flat
  induction flat with
  | nil => intro bits; cases bits <;> rfl
  | cons b f ih =>
      intro bits
      cases bits with
      | nil => rfl
      | cons bit bs => simp [writeLSBs, ih]

theorem writeLSBs_bytes : ∀ flat bits : List ℕ, ByteList flat → BitList bits →
    ByteList (writeLSBs flat bits) := by
  intro flat
  induction flat with
  | nil => intro bits _ _; cases bits <;> simp [writeLSBs, ByteList]
  | cons b f ih =>
      intro bits hf hb
      cases bits with
      | nil => exact hf
      | cons bit bs =>
          intro x hx
          simp only [writeLSBs, List.mem_cons] at hx
          rcases hx with rfl | hx
          · exact (lsbWriteByte_spec b (hf b (by simp)) bit (hb bit (by simp))).2
          · exact ih bs (fun y hy => hf y (by simp [hy]))
              (fun y hy => hb y (by simp [hy])) x hx

theorem writeLSBs_map_lsb : ∀ flat bits : List ℕ, ByteList flat → BitList bits →
    bits.length ≤ flat.length →
    (writeLSBs flat bits).map (· &&& 1) =
      bits ++ (flat.drop bits.length).map (· &&& 1) := by
  intro flat
  induction flat with
  | nil =>
      intro bits _ _ hlen
      cases bits with
      | nil => rfl
      | cons bit bs => simp at hlen
  | cons b f ih =>
      intro bits hf hb hlen
      cases bits with
      | nil => simp [writeLSBs]
      | cons bit bs =>
          have h1 := (lsbWriteByte_spec b (hf b (by simp)) bit (hb bit (by simp))).1
          simp only [writeLSBs, List.map_cons, h1, List.length_cons, List.drop_succ_cons,
            List.cons_append, List.cons.injEq, true_and]
          exact ih bs (fun y hy => hf y (by simp [hy]))
            (fun y hy => hb y (by simp [hy])) (by simpa using hlen)

/-!  Frame shape facts. -/

theorem frame_length (magic payload : List ℕ) (h : magic.length = 4) :
    (bitsFromBytes (magic ++ le4 payload.length ++ payload)).length =
      64 + 8 * payload.length := by
  rw [bitsFromBytes_length]
  simp [h, le4]
  ring

theorem frame_split (magic payload : List ℕ) :
    bitsFromBytes (magic ++ le4 payload.length ++ payload) =
      bitsFromBytes magic ++
        (bitsFromBytes (le4 payload.length) ++ bitsFromBytes payload) := by
  rw [List.append_assoc, bitsFromBytes_append, bitsFromBytes_append]

/-!  The common LSB extraction, applied to a carrier whose low bits hold a
frame. -/

theorem lsbExtract_written (magic payload out rest : List ℕ) (rate : ℚ)
    (hpB : ByteList payload) (hmlen : magic.length = 4)
    (hL : payload.length < 2 ^ 32) (hrate1 : rate ≤ 1)
    (hmap : out.map (· &&& 1) =
      bitsFromBytes magic ++ (bitsFromBytes (le4 payload.length) ++
        (bitsFromBytes payload ++ rest)))
    (hcap : 64 + 8 * payload.length ≤ lsbCapacityBits out.length rate) :
    lsbExtract (bitsFromBytes magic) out rate = .ok payload := by
  have hA : (bitsFromBytes magic).length = 32 := by
    rw [bitsFromBytes_length, hmlen]
  have hB : (bitsFromBytes (le4 payload.length)).length = 32 := by
    rw [bitsFromBytes_length, le4_length]
  have hC : (bitsFromBytes payload).length = 8 * payload.length :=
    bitsFromBytes_length _
  have hrate0 : 0 < rate := rate_pos_of_lsbCapacity out.length rate (by omega)
  have e1 : (out.take 32).map (· &&& 1) = bitsFromBytes magic := by
    rw [List.map_take, hmap, List.take_left' hA]
  have edrop : (out.map (· &&& 1)).drop 32 =
      bitsFromBytes (le4 payload.length) ++ (bitsFromBytes payload ++ rest) := by
    rw [hmap, List.drop_left' hA]
  have e2 : ((out.drop 32).take 32).map (· &&& 1) =
      bitsFromBytes (le4 payload.length) := by
    rw [List.map_take, List.map_drop, edrop, List.take_left' hB]
  have e3 : ((out.drop (32 + 32)).take (payload.length * 8)).map (· &&& 1) =
      bitsFromBytes payload := by
    rw [List.map_take, List.map_drop]
    have h64 : (out.map (· &&& 1)).drop (32 + 32) =
        bitsFromBytes payload ++ rest := by
      rw [← List.drop_drop, edrop, List.drop_left' hB]
    rw [h64, List.take_left' (by omega)]
  rw [lsbExtract, if_neg (not_not_intro ⟨hrate0, hrate1⟩)]
  rw [hA]
  rw [if_neg (by omega), if_neg (not_not_intro e1)]
  rw [e2, bytesFromBits_bitsFromBytes _ (le4_bytes _)]
  show (if lsbCapacityBits out.length rate <
          32 + 32 + fromBytesLE (le4 payload.length) * 8 then
        Except.error StegoError.truncatedPayload
      else
        bytesFromBits (((out.drop (32 + 32)).take
          (fromBytesLE (le4 payload.length) * 8)).map (· &&& 1))) = Except.ok payload
  rw [fromBytesLE_le4 _ hL]
  rw [if_neg (by omega)]
  rw [e3, bytesFromBits_bitsFromBytes _ hpB]

/-!  LSB Replacement: embed success and round trip. -/

theorem lsbrEmbed_ok (flat payload : List ℕ) (rate : ℚ)
    (h0 : 0 ≤ rate) (h1 : rate ≤ 1) (hL : payload.length < 2 ^ 32)
    (hcap : 64 + 8 * payload.length ≤ lsbCapacityBits flat.length rate) :
    lsbrEmbed flat payload rate =
      .ok (writeLSBs flat
        (bitsFromBytes (MAGIC_LSBR ++ le4 payload.length ++ payload))) := by
  rw [lsbrEmbed, if_neg (not_not_intro ⟨h0, h1⟩), if_neg (by omega)]
  rw [if_neg (by rw [frame_length MAGIC_LSBR payload rfl]; omega)]

theorem lsbr_roundtrip (flat payload : List ℕ) (rate : ℚ)
    (hfB : ByteList flat) (hpB : ByteList payload)
    (h0 : 0 ≤ rate) (h1 : rate ≤ 1) (hL : payload.length < 2 ^ 32)
    (hcap : 64 + 8 * payload.length ≤ lsbCapacityBits flat.length rate) :
    lsbrEmbed flat payload rate =
      .ok (writeLSBs flat
        (bitsFromBytes (MAGIC_LSBR ++ le4 payload.length ++ payload))) ∧
    lsbrExtract
      (writeLSBs flat (bitsFromBytes (MAGIC_LSBR ++ le4 payload.length ++ payload)))
      rate = .ok payload := by
  refine ⟨lsbrEmbed_ok flat payload rate h0 h1 hL hcap, ?_⟩
  have hblen : (bitsFromBytes (MAGIC_LSBR ++ le4 payload.length ++ payload)).length =
      64 + 8 * payload.length := frame_length MAGIC_LSBR payload rfl
  have hbl : BitList (bitsFromBytes (MAGIC_LSBR ++ le4 payload.length ++ payload)) :=
    bitsFromBytes_bits _
  have hle : (bitsFromBytes (MAGIC_LSBR ++ le4 payload.length ++ payload)).length ≤
      flat.length := by
    have := lsbCapacityBits_le flat.length rate h1
    omega
  have hmap := writeLSBs_map_lsb flat _ hfB hbl hle
  rw [lsbrExtract, MAGIC_BITS_LSBR]
  refine lsbExtract_written MAGIC_LSBR payload _
    ((flat.drop (bitsFromBytes (MAGIC_LSBR ++ le4 payload.length ++ payload)).length).map
      (· &&& 1)) rate hpB rfl hL h1 ?_ ?_
  · rw [hmap, frame_split]
    simp [List.append_assoc]
  · rw [writeLSBs_length]
    exact hcap

/-!  LSB Matching: facts about the write loop, embed success, round trip. -/

theorem lsbmApply_length : ∀ (flat bits : List ℕ) (pol : ℕ → Bool) (k : ℕ),
    (lsbmApply flat bits pol k).length = flat.length := by
  intro flat
  induction flat with
  | nil => intro bits pol k; cases bits <;> rfl
  | cons b f ih =>
      intro bits pol k
      cases bits with
      | nil => rfl
      | cons bit bs =>
          by_cases h : b &&& 1 = bit
          · simp only [lsbmApply]
            rw [if_pos h]
            simp [ih]
          · simp only [lsbmApply]
            rw [if_neg h]
            simp [ih]

theorem lsbmApply_bytes : ∀ (flat bits : List ℕ) (pol : ℕ → Bool) (k : ℕ),
    ByteList flat → ByteList (lsbmApply flat bits pol k) := by
  intro flat
  induction flat with
  | nil => intro bits pol k _; cases bits <;> simp [lsbmApply, ByteList]
  | cons b f ih =>
      intro bits pol k hf
      have hb : b < 256 := hf b (by simp)
      have hf' : ByteList f := fun y hy => hf y (by simp [hy])
      cases bits with
      | nil => exact hf
      | cons bit bs =>
          intro x hx
          by_cases h : b &&& 1 = bit
          · simp only [lsbmApply, if_pos h, List.mem_cons] at hx
            rcases hx with rfl | hx
            · exact hb
            · exact ih bs pol k hf' x hx
          · simp only [lsbmApply, if_neg h, List.mem_cons] at hx
            rcases hx with rfl | hx
            · exact (lsbmAdjust_spec (pol k) b hb).2.1
            · exact ih bs pol (k + 1) hf' x hx

theorem lsbmApply_map_lsb : ∀ (flat bits : List ℕ) (pol : ℕ → Bool) (k : ℕ),
    ByteList flat → BitList bits → bits.length ≤ flat.length →
    (lsbmApply flat bits pol k).map (· &&& 1) =
      bits ++ (flat.drop bits.length).map (· &&& 1) := by
  intro flat
  induction flat with
  | nil =>
      intro bits pol k _ _ hlen
      cases bits with
      | nil => rfl
      | cons bit bs => simp at hlen
  | cons b f ih =>
      intro bits pol k hf hb hlen
      have hbv : b < 256 := hf b (by simp)
      have hf' : ByteList f := fun y hy => hf y (by simp [hy])
      cases bits with
      | nil => simp [lsbmApply]
      | cons bit bs =>
          have hbit : bit < 2 := hb bit (by simp)
          have hbs : BitList bs := fun y hy => hb y (by simp [hy])
          have hlen' : bs.length ≤ f.length := by simpa using hlen
          by_cases h : b &&& 1 = bit
          · simp only [lsbmApply]
            rw [if_pos h]
            simp only [List.map_cons, h, List.length_cons, List.drop_succ_cons,
              List.cons_append, List.cons.injEq, true_and]
            exact ih bs pol k hf' hbs hlen'
          · have hx := (lsbmAdjust_spec (pol k) b hbv).1
            have ha1 : b &&& 1 < 2 := by
              have h2 : b &&& 1 ≤ 1 := Nat.and_le_right
              omega
            have hbit' : bit = (b &&& 1) ^^^ 1 :=
              bit_neq_iff_xor_one (b &&& 1) ha1 bit hbit h
            simp only [lsbmApply]
            rw [if_neg h]
            simp only [List.map_cons, hx, List.length_cons, List.drop_succ_cons,
              List.cons_append, List.cons.injEq]
            exact ⟨hbit'.symm, ih bs pol (k + 1) hf' hbs hlen'⟩

theorem lsbmEmbed_ok (flat payload : List ℕ) (rate : ℚ) (pol : ℕ → Bool)
    (h0 : 0 ≤ rate) (h1 : rate ≤ 1) (hL : payload.length < 2 ^ 32)
    (hcap : 64 + 8 * payload.length ≤ lsbCapacityBits flat.length rate) :
    lsbmEmbed flat payload rate pol =
      .ok (lsbmApply flat
        (bitsFromBytes (MAGIC_LSBM ++ le4 payload.length ++ payload)) pol 0) := by
  rw [lsbmEmbed, if_neg (not_not_intro ⟨h0, h1⟩), if_neg (by omega)]
  rw [if_neg (by rw [frame_length MAGIC_LSBM payload rfl]; omega)]

theorem lsbm_roundtrip (flat payload : List ℕ) (rate : ℚ) (pol : ℕ → Bool)
    (hfB : ByteList flat) (hpB : ByteList payload)
    (h0 : 0 ≤ rate) (h1 : rate ≤ 1) (hL : payload.length < 2 ^ 32)
    (hcap : 64 + 8 * payload.length ≤ lsbCapacityBits flat.length rate) :
    lsbmEmbed flat payload rate pol =
      .ok (lsbmApply flat
        (bitsFromBytes (MAGIC_LSBM ++ le4 payload.length ++ payload)) pol 0) ∧
    lsbmExtract
      (lsbmApply flat (bitsFromBytes (MAGIC_LSBM ++ le4 payload.length ++ payload)) pol 0)
      rate = .ok payload := by
  refine ⟨lsbmEmbed_ok flat payload rate pol h0 h1 hL hcap, ?_⟩
  have hblen : (bitsFromBytes (MAGIC_LSBM ++ le4 payload.length ++ payload)).length =
      64 + 8 * payload.length := frame_length MAGIC_LSBM payload rfl
  have hbl : BitList (bitsFromBytes (MAGIC_LSBM ++ le4 payload.length ++ payload)) :=
    bitsFromBytes_bits _
  have hle : (bitsFromBytes (MAGIC_LSBM ++ le4 payload.length ++ payload)).length ≤
      flat.length := by
    have := lsbCapacityBits_le flat.length rate h1
    omega
  have hmap := lsbmApply_map_lsb flat _ pol 0 hfB hbl hle
  rw [lsbmExtract, MAGIC_BITS_LSBM]
  refine lsbExtract_written MAGIC_LSBM payload _
    ((flat.drop (bitsFromBytes (MAGIC_LSBM ++ le4 payload.length ++ payload)).length).map
      (· &&& 1)) rate hpB rfl hL h1 ?_ ?_
  · rw [hmap, frame_split]
    simp [List.append_assoc]
  · rw [lsbmApply_length]
    exact hcap

/-!  Hamming engine: block-level facts. -/

theorem syndrome_eq (c : List ℕ) :
    syndrome c = [synBit 0 c, synBit 1 c, synBit 2 c, synBit 3 c] := rfl

theorem synBit_lt_two (r : ℕ) (c : List ℕ) : synBit r c < 2 :=
  Nat.mod_lt _ (by omega)

theorem H_le_one (r j : ℕ) : H r j ≤ 1 := Nat.and_le_right

theorem getD_set_self (l : List ℕ) (p x : ℕ) (h : p < l.length) :
    (l.set p x).getD p 0 = x := by
  rw [List.getD_eq_getElem?_getD, List.getElem?_set_eq_of_lt x h]
  rfl

theorem getD_set_ne (l : List ℕ) (p j x : ℕ) (h : j ≠ p) :
    (l.set p x).getD j 0 = l.getD j 0 := by
  rw [List.getD_eq_getElem?_getD, List.getD_eq_getElem?_getD,
    List.getElem?_set_ne (by omega)]

theorem coverBits_length (block : List ℕ) :
    (coverBits block).length = block.length := by
  simp [coverBits]

theorem coverBits_getD (block : List ℕ) (p : ℕ) (h : p < block.length) :
    (coverBits block).getD p 0 = block.getD p 0 &&& 1 := by
  rw [coverBits, List.getD_eq_getElem?_getD, List.getD_eq_getElem?_getD,
    List.getElem?_map]
  simp [List.getElem?_eq_getElem h]

theorem coverBits_bits (block : List ℕ) : BitList (coverBits block) := by
  intro x hx
  simp only [coverBits, List.mem_map] at hx
  obtain ⟨b, _, rfl⟩ := hx
  have h : b &&& 1 ≤ 1 := Nat.and_le_right
  omega

theorem coverBits_set (block : List ℕ) (p x : ℕ) :
    coverBits (block.set p x) = (coverBits block).set p (x &&& 1) :=
  List.map_set ..

theorem synSum_set (r : ℕ) (c : List ℕ) (p x : ℕ) (hp : p < 15)
    (hpl : p < c.length) :
    (∑ j ∈ Finset.range 15, H r j * (c.set p x).getD j 0) + H r p * c.getD p 0 =
      (∑ j ∈ Finset.range 15, H r j * c.getD j 0) + H r p * x := by
  have hmem : p ∈ Finset.range 15 := Finset.mem_range.mpr hp
  rw [← Finset.add_sum_erase _ _ hmem,
    ← Finset.add_sum_erase _ (fun j => H r j * c.getD j 0) hmem]
  have herase : ∑ j ∈ (Finset.range 15).erase p, H r j * (c.set p x).getD j 0 =
      ∑ j ∈ (Finset.range 15).erase p, H r j * c.getD j 0 := by
    refine Finset.sum_congr rfl fun j hj => ?_
    rw [getD_set_ne _ _ _ _ (Finset.ne_of_mem_erase hj)]
  rw [herase, getD_set_self _ _ _ hpl]
  ring

theorem synBit_set_flip (r : ℕ) (c : List ℕ) (p : ℕ) (hp : p < 15)
    (hpl : p < c.length) (hc : c.getD p 0 < 2) :
    synBit r (c.set p (c.getD p 0 ^^^ 1)) = (synBit r c + H r p) % 2 := by
  have hH : H r p ≤ 1 := H_le_one r p
  have ha : c.getD p 0 = 0 ∨ c.getD p 0 = 1 := by omega
  rcases ha with ha | ha
  · have hrel := synSum_set r c p 1 hp hpl
    rw [ha] at hrel
    simp only [synBit, ha, show (0 : ℕ) ^^^ 1 = 1 from rfl]
    omega
  · have hrel := synSum_set r c p 0 hp hpl
    rw [ha] at hrel
    simp only [synBit, ha, show (1 : ℕ) ^^^ 1 = 0 from rfl]
    omega

/-!  Finite facts about nibble packing and the matrix columns. -/

theorem nibbleVal_digits : ∀ d0 < 2, ∀ d1 < 2, ∀ d2 < 2, ∀ d3 < 2,
    nibbleVal [d0, d1, d2, d3] < 16 ∧
    (nibbleVal [d0, d1, d2, d3] = 0 ↔ d0 = 0 ∧ d1 = 0 ∧ d2 = 0 ∧ d3 = 0) ∧
    (nibbleVal [d0, d1, d2, d3] ≠ 0 →
      H 0 (nibbleVal [d0, d1, d2, d3] - 1) = d0 ∧
      H 1 (nibbleVal [d0, d1, d2, d3] - 1) = d1 ∧
      H 2 (nibbleVal [d0, d1, d2, d3] - 1) = d2 ∧
      H 3 (nibbleVal [d0, d1, d2, d3] - 1) = d3) := by
  decide

theorem xor_bit_lt : ∀ a < 2, ∀ b < 2, a ^^^ b < 2 := by decide

theorem xor_eq_zero_iff : ∀ a < 2, ∀ b < 2, (a ^^^ b = 0 ↔ a = b) := by decide

theorem add_xor_mod_two : ∀ a < 2, ∀ b < 2, (a + (a ^^^ b)) % 2 = b := by decide

theorem byte_xor_one_and : ∀ b < 256, (b ^^^ 1) &&& 1 = (b &&& 1) ^^^ 1 := by decide

theorem bitList_getD (l : List ℕ) (p : ℕ) (h : p < l.length) (hb : BitList l) :
    l.getD p 0 < 2 := by
  rw [List.getD_eq_getElem l 0 h]
  exact hb _ (List.getElem_mem h)

theorem byteList_getD (l : List ℕ) (p : ℕ) (h : p < l.length) (hb : ByteList l) :
    l.getD p 0 < 256 := by
  rw [List.getD_eq_getElem l 0 h]
  exact hb _ (List.getElem_mem h)

/-- Single-block correctness of the Hamming embed step: the rewritten block
has the target nibble as its syndrome, and it differs from the original in
at most the one flipped byte. -/
theorem hammingEmbedBlock_spec (block m : List ℕ) (hlen : block.length = 15)
    (hbB : ByteList block) (hm4 : m.length = 4) (hmb : BitList m) :
    syndrome (coverBits (hammingEmbedBlock block m)) = m ∧
    (hammingEmbedBlock block m).length = 15 ∧
    ByteList (hammingEmbedBlock block m) := by
  rcases m with _ | ⟨m0, m⟩; · simp at hm4
  rcases m with _ | ⟨m1, m⟩; · simp at hm4
  rcases m with _ | ⟨m2, m⟩; · simp at hm4
  rcases m with _ | ⟨m3, m⟩; · simp at hm4
  rcases m with _ | ⟨m4, m⟩
  case cons.cons.cons.cons.cons => simp at hm4
  have hm0 : m0 < 2 := hmb m0 (by simp)
  have hm1 : m1 < 2 := hmb m1 (by simp)
  have hm2 : m2 < 2 := hmb m2 (by simp)
  have hm3 : m3 < 2 := hmb m3 (by simp)
  have hclen : (coverBits block).length = 15 := by rw [coverBits_length, hlen]
  have hs0 : synBit 0 (coverBits block) < 2 := synBit_lt_two _ _
  have hs1 : synBit 1 (coverBits block) < 2 := synBit_lt_two _ _
  have hs2 : synBit 2 (coverBits block) < 2 := synBit_lt_two _ _
  have hs3 : synBit 3 (coverBits block) < 2 := synBit_lt_two _ _
  have hd := nibbleVal_digits
    (synBit 0 (coverBits block) ^^^ m0) (xor_bit_lt _ hs0 _ hm0)
    (synBit 1 (coverBits block) ^^^ m1) (xor_bit_lt _ hs1 _ hm1)
    (synBit 2 (coverBits block) ^^^ m2) (xor_bit_lt _ hs2 _ hm2)
    (synBit 3 (coverBits block) ^^^ m3) (xor_bit_lt _ hs3 _ hm3)
  simp only [hammingEmbedBlock, syndrome_eq, List.zipWith_cons_cons,
    List.zipWith_nil_right]
  by_cases hv : nibbleVal [synBit 0 (coverBits block) ^^^ m0,
      synBit 1 (coverBits block) ^^^ m1, synBit 2 (coverBits block) ^^^ m2,
      synBit 3 (coverBits block) ^^^ m3] = 0
  · rw [if_pos hv]
    obtain ⟨h0, h1, h2, h3⟩ := hd.2.1.mp hv
    refine ⟨?_, hlen, hbB⟩
    have e0 := (xor_eq_zero_iff _ hs0 _ hm0).mp h0
    have e1 := (xor_eq_zero_iff _ hs1 _ hm1).mp h1
    have e2 := (xor_eq_zero_iff _ hs2 _ hm2).mp h2
    have e3 := (xor_eq_zero_iff _ hs3 _ hm3).mp h3
    rw [e0, e1, e2, e3]
  · rw [if_neg hv]
    obtain ⟨hH0, hH1, hH2, hH3⟩ := hd.2.2 hv
    have hv16 := hd.1
    set v := nibbleVal [synBit 0 (coverBits block) ^^^ m0,
      synBit 1 (coverBits block) ^^^ m1, synBit 2 (coverBits block) ^^^ m2,
      synBit 3 (coverBits block) ^^^ m3] with hvdef
    have hp15 : v - 1 < 15 := by omega
    have hpb : v - 1 < block.length := by omega
    have hb256 : block.getD (v - 1) 0 < 256 := byteList_getD block _ hpb hbB
    have hcset : coverBits (block.set (v - 1) (block.getD (v - 1) 0 ^^^ 1)) =
        (coverBits block).set (v - 1) ((coverBits block).getD (v - 1) 0 ^^^ 1) := by
      rw [coverBits_set, byte_xor_one_and _ hb256, coverBits_getD block _ hpb]
    have hcbit : (coverBits block).getD (v - 1) 0 < 2 :=
      bitList_getD _ _ (by omega) (coverBits_bits block)
    have hsyn : ∀ r, synBit r (coverBits (block.set (v - 1)
        (block.getD (v - 1) 0 ^^^ 1))) =
        (synBit r (coverBits block) + H r (v - 1)) % 2 := by
      intro r
      rw [hcset]
      exact synBit_set_flip r (coverBits block) (v - 1) hp15 (by omega) hcbit
    refine ⟨?_, by rw [List.length_set, hlen], ?_⟩
    · rw [hsyn 0, hsyn 1, hsyn 2, hsyn 3, hH0, hH1, hH2, hH3,
        add_xor_mod_two _ hs0 _ hm0, add_xor_mod_two _ hs1 _ hm1,
        add_xor_mod_two _ hs2 _ hm2, add_xor_mod_two _ hs3 _ hm3]
    · intro x hx
      rcases List.mem_or_eq_of_mem_set hx with hx | rfl
      · exact hbB x hx
      · exact Nat.xor_lt_two_pow (n := 8) hb256 (by omega)

/-!  Nibble splitting. -/

theorem toNibbles_flatten : ∀ bits : List ℕ, bits.length % 4 = 0 →
    (toNibbles bits).flatten = bits := by
  intro bits
  induction bits using toNibbles.induct with
  | case1 b0 b1 b2 b3 rest ih =>
      intro h
      simp only [toNibbles, List.flatten_cons]
      rw [ih (by simp at h ⊢; omega)]
      rfl
  | case2 bits h =>
      intro hlen
      rcases bits with _ | ⟨a, _ | ⟨b, _ | ⟨c, _ | ⟨d, t⟩⟩⟩⟩
      · rfl
      · simp at hlen
      · simp at hlen
      · simp at hlen
      · exact (h a b c d t rfl).elim

theorem toNibbles_length : ∀ bits : List ℕ,
    (toNibbles bits).length = bits.length / 4 := by
  intro bits
  induction bits using toNibbles.induct with
  | case1 b0 b1 b2 b3 rest ih =>
      simp only [toNibbles, List.length_cons, ih]
      omega
  | case2 bits h =>
      rcases bits with _ | ⟨a, _ | ⟨b, _ | ⟨c, _ | ⟨d, t⟩⟩⟩⟩
      · rfl
      · simp [toNibbles]
      · simp [toNibbles]
      · simp [toNibbles]
      · exact (h a b c d t rfl).elim

theorem toNibbles_mem_length : ∀ bits : List ℕ, ∀ n ∈ toNibbles bits,
    n.length = 4 := by
  intro bits
  induction bits using toNibbles.induct with
  | case1 b0 b1 b2 b3 rest ih =>
      intro n hn
      simp only [toNibbles, List.mem_cons] at hn
      rcases hn with rfl | hn
      · rfl
      · exact ih n hn
  | case2 bits h =>
      intro n hn
      rcases bits with _ | ⟨a, _ | ⟨b, _ | ⟨c, _ | ⟨d, t⟩⟩⟩⟩ <;>
        first
        | exact (h a b c d t rfl).elim
        | simp [toNibbles] at hn

theorem toNibbles_mem_bits : ∀ bits : List ℕ, BitList bits →
    ∀ n ∈ toNibbles bits, BitList n := by
  intro bits
  induction bits using toNibbles.induct with
  | case1 b0 b1 b2 b3 rest ih =>
      intro hb n hn
      simp only [toNibbles, List.mem_cons] at hn
      rcases hn with rfl | hn
      · intro x hx
        simp only [List.mem_cons, List.not_mem_nil, or_false] at hx
        rcases hx with rfl | rfl | rfl | rfl <;> exact hb _ (by simp)
      · exact ih (fun x hx => hb x (by simp [hx])) n hn
  | case2 bits h =>
      intro hb n hn
      rcases bits with _ | ⟨a, _ | ⟨b, _ | ⟨c, _ | ⟨d, t⟩⟩⟩⟩ <;>
        first
        | exact (h a b c d t rfl).elim
        | simp [toNibbles] at hn

/-!  Reading syndromes. -/

theorem syndrome_length (c : List ℕ) : (syndrome c).length = 4 := rfl

theorem readSyndromes_length : ∀ (k : ℕ) (flat : List ℕ),
    (readSyndromes flat k).length = 4 * k := by
  intro k
  induction k with
  | zero => intro flat; rfl
  | succ j ih =>
      intro flat
      simp only [readSyndromes, List.length_append, syndrome_length, ih]
      omega

/-!  Hamming capacity bounds. -/

theorem hammingUsableBlocks_le (len : ℕ) (rate : ℚ) (h : rate ≤ 1) :
    hammingUsableBlocks len rate ≤ len / 15 := by
  have h1 : ((len / 15 : ℕ) : ℚ) * rate ≤ ((len / 15 : ℕ) : ℚ) := by
    calc ((len / 15 : ℕ) : ℚ) * rate ≤ ((len / 15 : ℕ) : ℚ) * 1 :=
          mul_le_mul_of_nonneg_left h (by positivity)
    _ = ((len / 15 : ℕ) : ℚ) := mul_one _
  have h2 : ⌊((len / 15 : ℕ) : ℚ) * rate⌋ ≤ ⌊((len / 15 : ℕ) : ℚ)⌋ :=
    Int.floor_le_floor h1
  have h3 : ⌊((len / 15 : ℕ) : ℚ)⌋ = ((len / 15 : ℕ) : ℤ) := Int.floor_natCast _
  simp only [hammingUsableBlocks, intFloor]
  omega

theorem rate_pos_of_hammingUsable (len : ℕ) (rate : ℚ)
    (h : 1 ≤ hammingUsableBlocks len rate) : 0 < rate := by
  have hq : 0 < ((len / 15 : ℕ) : ℚ) * rate := pos_of_intFloor_pos _ h
  by_contra hr
  push_neg at hr
  have : ((len / 15 : ℕ) : ℚ) * rate ≤ 0 :=
    mul_nonpos_of_nonneg_of_nonpos (by positivity) hr
  linarith

/-!  The block-loop invariant: the written blocks carry the nibbles as their
syndromes and everything beyond them is untouched. -/

theorem hammingEmbedBlocks_spec : ∀ (ns : List (List ℕ)) (flat : List ℕ),
    (∀ n ∈ ns, n.length = 4 ∧ BitList n) → 15 * ns.length ≤ flat.length →
    ByteList flat →
    (hammingEmbedBlocks flat ns).length = flat.length ∧
    ByteList (hammingEmbedBlocks flat ns) ∧
    (hammingEmbedBlocks flat ns).drop (15 * ns.length) =
      flat.drop (15 * ns.length) ∧
    ∀ extra, readSyndromes (hammingEmbedBlocks flat ns) (ns.length + extra) =
      ns.flatten ++ readSyndromes (flat.drop (15 * ns.length)) extra := by
  intro ns
  induction ns with
  | nil =>
      intro flat _ _ hfB
      refine ⟨rfl, hfB, rfl, fun extra => ?_⟩
      simp [hammingEmbedBlocks]
  | cons n ns ih =>
      intro flat hns hlen hfB
      have hn4 : n.length = 4 := (hns n (by simp)).1
      have hnb : BitList n := (hns n (by simp)).2
      have hns' : ∀ x ∈ ns, x.length = 4 ∧ BitList x := fun x hx => hns x (by simp [hx])
      have hlen' : 15 * ns.length + 15 ≤ flat.length := by
        simp only [List.length_cons] at hlen; omega
      have htake_len : (flat.take 15).length = 15 := by
        rw [List.length_take]; omega
      have htakeB : ByteList (flat.take 15) :=
        fun x hx => hfB x (List.take_subset _ _ hx)
      have hdropB : ByteList (flat.drop 15) :=
        fun x hx => hfB x (List.drop_subset _ _ hx)
      have hdlen : 15 * ns.length ≤ (flat.drop 15).length := by
        rw [List.length_drop]; omega
      obtain ⟨hsynA, hAlen, hAbytes⟩ :=
        hammingEmbedBlock_spec (flat.take 15) n htake_len htakeB hn4 hnb
      obtain ⟨ihlen, ihbytes, ihdrop, ihread⟩ := ih (flat.drop 15) hns' hdlen hdropB
      have hidx : 15 * (n :: ns).length = 15 + 15 * ns.length := by
        simp only [List.length_cons]; ring
      simp only [hammingEmbedBlocks]
      have hstep : (hammingEmbedBlock (flat.take 15) n ++
          hammingEmbedBlocks (flat.drop 15) ns).drop 15 =
          hammingEmbedBlocks (flat.drop 15) ns := List.drop_left' hAlen
      refine ⟨?_, ?_, ?_, ?_⟩
      · rw [List.length_append, hAlen, ihlen, List.length_drop]; omega
      · intro x hx
        rcases List.mem_append.mp hx with hx | hx
        · exact hAbytes x hx
        · exact ihbytes x hx
      · rw [hidx, ← List.drop_drop, hstep, ihdrop]
        rw [List.drop_drop]
      · intro extra
        have harr : (n :: ns).length + extra = (ns.length + extra) + 1 := by
          simp only [List.length_cons]; omega
        rw [harr]
        simp only [readSyndromes]
        rw [List.take_left' hAlen, hstep, hsynA, ihread extra]
        rw [hidx, ← List.drop_drop, List.flatten_cons, List.append_assoc]

/-!  Hamming embed success and round trip. -/

theorem hammingPad_of_aligned (bits : List ℕ) (h : bits.length % 4 = 0) :
    hammingPad bits = bits := by
  rw [hammingPad, if_neg (by omega)]

theorem hammingEmbed_ok (flat payload : List ℕ) (rate : ℚ)
    (h0 : 0 ≤ rate) (h1 : rate ≤ 1) (hL : payload.length < 2 ^ 32)
    (hcap : 64 + 8 * payload.length ≤ hammingCapacityBits flat.length rate) :
    hammingEmbed flat payload rate =
      .ok (hammingEmbedBlocks flat
        ((toNibbles (bitsFromBytes (MAGIC_HAMM ++ le4 payload.length ++ payload))).take
          (hammingUsableBlocks flat.length rate))) := by
  rw [hammingEmbed, if_neg (not_not_intro ⟨h0, h1⟩), toBytesLE4_ok _ hL]
  show (if hammingUsableBlocks flat.length rate * 4 <
        (bitsFromBytes (MAGIC_HAMM ++ le4 payload.length ++ payload)).length then
      Except.error StegoError.capacityExceeded
    else .ok (hammingEmbedBlocks flat
      ((toNibbles (hammingPad
          (bitsFromBytes (MAGIC_HAMM ++ le4 payload.length ++ payload)))).take
        (hammingUsableBlocks flat.length rate)))) = _
  rw [frame_length MAGIC_HAMM payload rfl]
  rw [if_neg (by simp only [hammingCapacityBits] at hcap; omega)]
  rw [hammingPad_of_aligned _ (by rw [frame_length MAGIC_HAMM payload rfl]; omega)]

theorem hammingExtract_written (out g payload : List ℕ) (rate : ℚ)
    (hpB : ByteList payload) (hL : payload.length < 2 ^ 32)
    (hrate0 : 0 < rate) (hrate1 : rate ≤ 1)
    (hbits : readSyndromes out (hammingUsableBlocks out.length rate) =
      bitsFromBytes MAGIC_HAMM ++ (bitsFromBytes (le4 payload.length) ++
        (bitsFromBytes payload ++ g)))
    (hcap : 64 + 8 * payload.length ≤ 4 * hammingUsableBlocks out.length rate) :
    hammingExtract out rate = .ok payload := by
  have hA : (bitsFromBytes MAGIC_HAMM).length = 32 := by
    rw [bitsFromBytes_length]; rfl
  have hB : (bitsFromBytes (le4 payload.length)).length = 32 := by
    rw [bitsFromBytes_length, le4_length]
  have hC : (bitsFromBytes payload).length = 8 * payload.length :=
    bitsFromBytes_length _
  have hrs : (readSyndromes out (hammingUsableBlocks out.length rate)).length =
      4 * hammingUsableBlocks out.length rate := readSyndromes_length _ _
  have e1 : (readSyndromes out (hammingUsableBlocks out.length rate)).take 32 =
      MAGIC_BITS_HAMM := by
    rw [hbits, List.take_left' hA, MAGIC_BITS_HAMM]
  have edrop : (readSyndromes out (hammingUsableBlocks out.length rate)).drop 32 =
      bitsFromBytes (le4 payload.length) ++ (bitsFromBytes payload ++ g) := by
    rw [hbits, List.drop_left' hA]
  have e2 : ((readSyndromes out (hammingUsableBlocks out.length rate)).drop 32).take 32 =
      bitsFromBytes (le4 payload.length) := by
    rw [edrop, List.take_left' hB]
  have e3 : ((readSyndromes out (hammingUsableBlocks out.length rate)).drop
        (32 + 32)).take (payload.length * 8) = bitsFromBytes payload := by
    have h64 : (readSyndromes out (hammingUsableBlocks out.length rate)).drop
        (32 + 32) = bitsFromBytes payload ++ g := by
      rw [← List.drop_drop, edrop, List.drop_left' hB]
    rw [h64, List.take_left' (by omega)]
  rw [hammingExtract, if_neg (not_not_intro ⟨hrate0, hrate1⟩)]
  rw [if_neg (by omega), if_neg (not_not_intro e1)]
  rw [e2, bytesFromBits_bitsFromBytes _ (le4_bytes _)]
  show (if (readSyndromes out (hammingUsableBlocks out.length rate)).length <
          32 + 32 + fromBytesLE (le4 payload.length) * 8 then
        Except.error StegoError.truncatedPayload
      else bytesFromBits (((readSyndromes out
          (hammingUsableBlocks out.length rate)).drop (32 + 32)).take
            (fromBytesLE (le4 payload.length) * 8))) = Except.ok payload
  rw [fromBytesLE_le4 _ hL]
  rw [if_neg (by omega)]
  rw [e3, bytesFromBits_bitsFromBytes _ hpB]

theorem hamming_roundtrip (flat payload : List ℕ) (rate : ℚ)
    (hfB : ByteList flat) (hpB : ByteList payload)
    (h0 : 0 ≤ rate) (h1 : rate ≤ 1) (hL : payload.length < 2 ^ 32)
    (hcap : 64 + 8 * payload.length ≤ hammingCapacityBits flat.length rate) :
    hammingEmbed flat payload rate =
      .ok (hammingEmbedBlocks flat
        ((toNibbles (bitsFromBytes (MAGIC_HAMM ++ le4 payload.length ++ payload))).take
          (hammingUsableBlocks flat.length rate))) ∧
    hammingExtract
      (hammingEmbedBlocks flat
        ((toNibbles (bitsFromBytes (MAGIC_HAMM ++ le4 payload.length ++ payload))).take
          (hammingUsableBlocks flat.length rate))) rate = .ok payload := by
  have hflen : (bitsFromBytes (MAGIC_HAMM ++ le4 payload.length ++ payload)).length =
      64 + 8 * payload.length := frame_length MAGIC_HAMM payload rfl
  have hmod : (bitsFromBytes (MAGIC_HAMM ++ le4 payload.length ++ payload)).length % 4
      = 0 := by omega
  have hcap4 : 64 + 8 * payload.length ≤ 4 * hammingUsableBlocks flat.length rate := by
    simp only [hammingCapacityBits] at hcap; omega
  have hcnt : (toNibbles (bitsFromBytes
      (MAGIC_HAMM ++ le4 payload.length ++ payload))).length =
      (64 + 8 * payload.length) / 4 := by
    rw [toNibbles_length, hflen]
  have hcnt_le : (toNibbles (bitsFromBytes
      (MAGIC_HAMM ++ le4 payload.length ++ payload))).length ≤
      hammingUsableBlocks flat.length rate := by
    rw [hcnt]; omega
  have htake : (toNibbles (bitsFromBytes
      (MAGIC_HAMM ++ le4 payload.length ++ payload))).take
      (hammingUsableBlocks flat.length rate) =
      toNibbles (bitsFromBytes (MAGIC_HAMM ++ le4 payload.length ++ payload)) :=
    List.take_of_length_le hcnt_le
  have hwf : ∀ n ∈ toNibbles (bitsFromBytes
      (MAGIC_HAMM ++ le4 payload.length ++ payload)), n.length = 4 ∧ BitList n :=
    fun n hn => ⟨toNibbles_mem_length _ n hn,
      toNibbles_mem_bits _ (bitsFromBytes_bits _) n hn⟩
  have h15 : 15 * (toNibbles (bitsFromBytes
      (MAGIC_HAMM ++ le4 payload.length ++ payload))).length ≤ flat.length := by
    have hub := hammingUsableBlocks_le flat.length rate h1
    have hdm : flat.length / 15 * 15 ≤ flat.length := Nat.div_mul_le_self _ _
    rw [hcnt]; omega
  obtain ⟨hlen, hbytes, hdrop, hread⟩ := hammingEmbedBlocks_spec
    (toNibbles (bitsFromBytes (MAGIC_HAMM ++ le4 payload.length ++ payload)))
    flat hwf h15 hfB
  refine ⟨hammingEmbed_ok flat payload rate h0 h1 hL hcap, ?_⟩
  rw [htake]
  have husable : hammingUsableBlocks (hammingEmbedBlocks flat
      (toNibbles (bitsFromBytes (MAGIC_HAMM ++ le4 payload.length ++ payload)))).length
      rate = hammingUsableBlocks flat.length rate := by rw [hlen]
  have hrate0 : 0 < rate := by
    apply rate_pos_of_hammingUsable flat.length rate
    omega
  apply hammingExtract_written _
    (readSyndromes (flat.drop (15 * (toNibbles (bitsFromBytes
      (MAGIC_HAMM ++ le4 payload.length ++ payload))).length))
      (hammingUsableBlocks flat.length rate - (toNibbles (bitsFromBytes
        (MAGIC_HAMM ++ le4 payload.length ++ payload))).length))
    payload rate hpB hL hrate0 h1
  · rw [husable]
    have hsplit : hammingUsableBlocks flat.length rate =
        (toNibbles (bitsFromBytes (MAGIC_HAMM ++ le4 payload.length ++ payload))).length
        + (hammingUsableBlocks flat.length rate - (toNibbles (bitsFromBytes
            (MAGIC_HAMM ++ le4 payload.length ++ payload))).length) := by omega
    rw [hsplit, hread, toNibbles_flatten _ hmod, frame_split]
    simp [List.append_assoc]
  · rw [husable]
    exact hcap4

/-!  Small indexing helpers. -/

theorem getD_take (l : List ℕ) (n i d : ℕ) (h : i < n) :
    (l.take n).getD i d = l.getD i d := by
  rw [List.getD_eq_getElem?_getD, List.getD_eq_getElem?_getD, List.getElem?_take]
  simp [h]

theorem getD_append_left (l1 l2 : List ℕ) (i d : ℕ) (h : i < l1.length) :
    (l1 ++ l2).getD i d = l1.getD i d :=
  List.getD_append _ _ _ _ h

theorem getD_drop (l : List ℕ) (k j d : ℕ) :
    (l.drop k).getD j d = l.getD (k + j) d := by
  rw [List.getD_eq_getElem?_getD, List.getD_eq_getElem?_getD, List.getElem?_drop]

/-!  Inversions of the embedding functions: what a successful embed tells us. -/

theorem lsbmEmbed_inv (flat payload : List ℕ) (rate : ℚ) (pol : ℕ → Bool)
    (out : List ℕ) (h : lsbmEmbed flat payload rate pol = .ok out) :
    out = lsbmApply flat
      (bitsFromBytes (MAGIC_LSBM ++ le4 payload.length ++ payload)) pol 0 ∧
    (bitsFromBytes (MAGIC_LSBM ++ le4 payload.length ++ payload)).length ≤
      lsbCapacityBits flat.length rate ∧
    0 ≤ rate ∧ rate ≤ 1 ∧ payload.length < 2 ^ 32 := by
  by_cases h1 : ¬(0 ≤ rate ∧ rate ≤ 1)
  · rw [lsbmEmbed, if_pos h1] at h
    exact absurd h (by simp)
  push_neg at h1
  by_cases h2 : 2 ^ 32 ≤ payload.length
  · rw [lsbmEmbed, if_neg (not_not_intro h1), if_pos h2] at h
    exact absurd h (by simp)
  by_cases h3 : lsbCapacityBits flat.length rate <
      (bitsFromBytes (MAGIC_LSBM ++ le4 payload.length ++ payload)).length
  · rw [lsbmEmbed, if_neg (not_not_intro h1), if_neg h2, if_pos h3] at h
    exact absurd h (by simp)
  · rw [lsbmEmbed, if_neg (not_not_intro h1), if_neg h2, if_neg h3] at h
    refine ⟨?_, by omega, h1.1, h1.2, by omega⟩
    simpa using h.symm

theorem hammingEmbed_inv (flat payload : List ℕ) (rate : ℚ)
    (out : List ℕ) (h : hammingEmbed flat payload rate = .ok out) :
    out = hammingEmbedBlocks flat
      ((toNibbles (hammingPad (bitsFromBytes
        (MAGIC_HAMM ++ le4 payload.length ++ payload)))).take
          (hammingUsableBlocks flat.length rate)) ∧
    (bitsFromBytes (MAGIC_HAMM ++ le4 payload.length ++ payload)).length ≤
      hammingUsableBlocks flat.length rate * 4 ∧
    0 ≤ rate ∧ rate ≤ 1 ∧ payload.length < 2 ^ 32 := by
  by_cases h1 : ¬(0 ≤ rate ∧ rate ≤ 1)
  · rw [hammingEmbed, if_pos h1] at h
    exact absurd h (by simp)
  push_neg at h1
  by_cases h2 : 2 ^ 32 ≤ payload.length
  · have herr : hammingEmbed flat payload rate = .error .payloadTooLarge := by
      rw [hammingEmbed, if_neg (not_not_intro h1), toBytesLE4, if_pos h2]
    rw [herr] at h
    exact absurd h (by simp)
  by_cases h3 : hammingUsableBlocks flat.length rate * 4 <
      (bitsFromBytes (MAGIC_HAMM ++ le4 payload.length ++ payload)).length
  · have herr : hammingEmbed flat payload rate = .error .capacityExceeded := by
      rw [hammingEmbed, if_neg (not_not_intro h1), toBytesLE4_ok _ (by omega)]
      show (if hammingUsableBlocks flat.length rate * 4 <
            (bitsFromBytes (MAGIC_HAMM ++ le4 payload.length ++ payload)).length then
          Except.error StegoError.capacityExceeded
        else .ok (hammingEmbedBlocks flat
          ((toNibbles (hammingPad
              (bitsFromBytes (MAGIC_HAMM ++ le4 payload.length ++ payload)))).take
            (hammingUsableBlocks flat.length rate)))) = _
      rw [if_pos h3]
    rw [herr] at h
    exact absurd h (by simp)
  · have hok : hammingEmbed flat payload rate = .ok (hammingEmbedBlocks flat
        ((toNibbles (hammingPad (bitsFromBytes
          (MAGIC_HAMM ++ le4 payload.length ++ payload)))).take
            (hammingUsableBlocks flat.length rate))) := by
      rw [hammingEmbed, if_neg (not_not_intro h1), toBytesLE4_ok _ (by omega)]
      show (if hammingUsableBlocks flat.length rate * 4 <
            (bitsFromBytes (MAGIC_HAMM ++ le4 payload.length ++ payload)).length then
          Except.error StegoError.capacityExceeded
        else .ok (hammingEmbedBlocks flat
          ((toNibbles (hammingPad
              (bitsFromBytes (MAGIC_HAMM ++ le4 payload.length ++ payload)))).take
            (hammingUsableBlocks flat.length rate)))) = _
      rw [if_neg h3]
    rw [hok] at h
    refine ⟨by simpa using h.symm, by omega, h1.1, h1.2, by omega⟩

/-!  Pointwise description of the LSB Matching write. -/

theorem lsbmApply_pointwise : ∀ (flat bits : List ℕ) (pol : ℕ → Bool) (k i : ℕ),
    i < flat.length →
    ((bits.length ≤ i ∨ flat.getD i 0 &&& 1 = bits.getD i 0) →
      (lsbmApply flat bits pol k).getD i 0 = flat.getD i 0) ∧
    (i < bits.length → flat.getD i 0 &&& 1 ≠ bits.getD i 0 →
      ∃ plus, (lsbmApply flat bits pol k).getD i 0 =
        lsbmAdjust (flat.getD i 0) plus) := by
  intro flat
  induction flat with
  | nil => intro bits pol k i hi; simp at hi
  | cons b f ih =>
      intro bits pol k i hi
      cases bits with
      | nil =>
          refine ⟨fun _ => rfl, fun hib _ => ?_⟩
          simp at hib
      | cons bit bs =>
          by_cases hmatch : b &&& 1 = bit
          · cases i with
            | zero =>
                simp only [lsbmApply]
                rw [if_pos hmatch]
                exact ⟨fun _ => rfl, fun _ hne => absurd hmatch (by simpa using hne)⟩
            | succ j =>
                have hj : j < f.length := by simpa using hi
                have := ih bs pol k j hj
                simp only [lsbmApply]
                rw [if_pos hmatch]
                simpa using this
          · cases i with
            | zero =>
                simp only [lsbmApply]
                rw [if_neg hmatch]
                refine ⟨fun hc => ?_, fun _ _ => ⟨pol k, rfl⟩⟩
                rcases hc with hc | hc
                · simp at hc
                · exact absurd (by simpa using hc) hmatch
            | succ j =>
                have hj : j < f.length := by simpa using hi
                have := ih bs pol (k + 1) j hj
                simp only [lsbmApply]
                rw [if_neg hmatch]
                simpa using this

/-!  The Hamming extraction reads only the usable region. -/

theorem readSyndromes_congr : ∀ (k : ℕ) (a b : List ℕ),
    a.take (15 * k) = b.take (15 * k) → readSyndromes a k = readSyndromes b k := by
  intro k
  induction k with
  | zero => intro a b _; rfl
  | succ j ih =>
      intro a b htake
      have h15 : 15 * (j + 1) = 15 + 15 * j := by ring
      rw [h15] at htake
      have htk : a.take 15 = b.take 15 := by
        apply List.ext_getElem?
        intro i
        rw [List.getElem?_take, List.getElem?_take]
        by_cases hi : i < 15
        · rw [if_pos hi, if_pos hi]
          have hgi := congrArg (fun l => l[i]?) htake
          simpa [List.getElem?_take, show i < 15 + 15 * j by omega] using hgi
        · rw [if_neg hi, if_neg hi]
      have hdr : (a.drop 15).take (15 * j) = (b.drop 15).take (15 * j) := by
        have hgd := congrArg (List.drop 15) htake
        simp only [List.drop_take] at hgd
        rwa [show 15 + 15 * j - 15 = 15 * j from by omega] at hgd
      simp only [readSyndromes]
      rw [htk, ih (a.drop 15) (b.drop 15) hdr]

theorem hammingUsableBlocks_one (len : ℕ) :
    hammingUsableBlocks len 1 = len / 15 := by
  rw [hammingUsableBlocks, mul_one, intFloor, Int.floor_natCast]
  omega

theorem lsbCapacityBits_zero (len : ℕ) : lsbCapacityBits len 0 = 0 := by
  simp [lsbCapacityBits, intFloor]

theorem hammingUsableBlocks_zero (len : ℕ) : hammingUsableBlocks len 0 = 0 := by
  simp [hammingUsableBlocks, intFloor]

theorem lsbCapacityBits_one (len : ℕ) : lsbCapacityBits len 1 = len := by
  rw [lsbCapacityBits, mul_one, intFloor, Int.floor_natCast]
  omega

theorem intFloor_eq (q : ℚ) (n : ℕ) (h1 : (n : ℚ) ≤ q) (h2 : q < n + 1) :
    intFloor q = n := by
  have hf : ⌊q⌋ = (n : ℤ) := Int.floor_eq_iff.mpr ⟨by exact_mod_cast h1, by
    push_cast
    exact_mod_cast h2⟩
  rw [intFloor, hf]
  omega

theorem byteList_replicate_zero (n : ℕ) : ByteList (List.replicate n 0) := by
  intro b hb
  rw [List.eq_of_mem_replicate hb]
  omega

/-!  Direct computations of the capacity-failure branches. -/

theorem lsbrEmbed_capacity_error (flat payload : List ℕ) (rate : ℚ)
    (h0 : 0 ≤ rate) (h1 : rate ≤ 1) (hL : payload.length < 2 ^ 32)
    (h3 : lsbCapacityBits flat.length rate < 64 + 8 * payload.length) :
    lsbrEmbed flat payload rate = .error .capacityExceeded := by
  rw [lsbrEmbed, if_neg (not_not_intro ⟨h0, h1⟩), if_neg (by omega),
    if_pos (by rw [frame_length MAGIC_LSBR payload rfl]; omega)]

theorem lsbmEmbed_capacity_error (flat payload : List ℕ) (rate : ℚ)
    (pol : ℕ → Bool) (h0 : 0 ≤ rate) (h1 : rate ≤ 1) (hL : payload.length < 2 ^ 32)
    (h3 : lsbCapacityBits flat.length rate < 64 + 8 * payload.length) :
    lsbmEmbed flat payload rate pol = .error .capacityExceeded := by
  rw [lsbmEmbed, if_neg (not_not_intro ⟨h0, h1⟩), if_neg (by omega),
    if_pos (by rw [frame_length MAGIC_LSBM payload rfl]; omega)]

theorem hammingEmbed_capacity_error (flat payload : List ℕ) (rate : ℚ)
    (h0 : 0 ≤ rate) (h1 : rate ≤ 1) (hL : payload.length < 2 ^ 32)
    (h3 : hammingCapacityBits flat.length rate < 64 + 8 * payload.length) :
    hammingEmbed flat payload rate = .error .capacityExceeded := by
  rw [hammingEmbed, if_neg (not_not_intro ⟨h0, h1⟩), toBytesLE4_ok _ hL]
  show (if hammingUsableBlocks flat.length rate * 4 <
        (bitsFromBytes (MAGIC_HAMM ++ le4 payload.length ++ payload)).length then
      Except.error StegoError.capacityExceeded
    else .ok (hammingEmbedBlocks flat
      ((toNibbles (hammingPad
          (bitsFromBytes (MAGIC_HAMM ++ le4 payload.length ++ payload)))).take
        (hammingUsableBlocks flat.length rate)))) = _
  rw [if_pos (by
    rw [frame_length MAGIC_HAMM payload rfl]
    simp only [hammingCapacityBits] at h3
    omega)]

/-!  Concrete inputs used by the witnesses. -/

/-- A 64-byte zero carrier. -/
def flatW64 : List ℕ := List.replicate 64 0

/-- A 240-byte zero carrier (16 full Hamming blocks). -/
def flatW240 : List ℕ := List.replicate 240 0

/-- A carrier exercising both LSB Matching boundary overrides. -/
def flatW3 : List ℕ := 255 :: 0 :: List.replicate 62 7

/-- A fixed polarity oracle (every draw "+1"). -/
def polW : ℕ → Bool := fun _ => true

/-- A 250-byte zero carrier (16 usable Hamming blocks, 10 tail bytes). -/
def flatW250 : List ℕ := List.replicate 250 0

/-- The same carrier with one byte changed beyond the usable region. -/
def flatW250' : List ℕ := List.replicate 245 0 ++ [9, 0, 0, 0, 0]

/-- The LSB Matching output carrier at the witness inputs. -/
def outW3 : List ℕ :=
  lsbmApply flatW3 (bitsFromBytes (MAGIC_LSBM ++ le4 ([] : List ℕ).length ++ [])) polW 0

/-!  The claims. -/

/-- C1: for each of the three engines, for every carrier and every payload
whose framed bit count (magic 32 bits + length 32 bits + 8·len(p) bits) is
at most the engine's capacity at the chosen rate, extracting at the same
rate from the carrier produced by embedding returns exactly the payload;
for LSB Matching this holds for every outcome of the random polarity
choices. -/
theorem C1_round_trip :
    (∀ flat payload : List ℕ, ∀ rate : ℚ, ByteList flat → ByteList payload →
      0 ≤ rate → rate ≤ 1 → payload.length < 2 ^ 32 →
      64 + 8 * payload.length ≤ lsbCapacityBits flat.length rate →
      ∃ out, lsbrEmbed flat payload rate = .ok out ∧
        lsbrExtract out rate = .ok payload) ∧
    (∀ flat payload : List ℕ, ∀ rate : ℚ, ∀ pol : ℕ → Bool, ByteList flat →
      ByteList payload → 0 ≤ rate → rate ≤ 1 → payload.length < 2 ^ 32 →
      64 + 8 * payload.length ≤ lsbCapacityBits flat.length rate →
      ∃ out, lsbmEmbed flat payload rate pol = .ok out ∧
        lsbmExtract out rate = .ok payload) ∧
    (∀ flat payload : List ℕ, ∀ rate : ℚ, ByteList flat → ByteList payload →
      0 ≤ rate → rate ≤ 1 → payload.length < 2 ^ 32 →
      64 + 8 * payload.length ≤ hammingCapacityBits flat.length rate →
      ∃ out, hammingEmbed flat payload rate = .ok out ∧
        hammingExtract out rate = .ok payload) := by
  refine ⟨fun flat payload rate hfB hpB h0 h1 hL hcap => ?_,
    fun flat payload rate pol hfB hpB h0 h1 hL hcap => ?_,
    fun flat payload rate hfB hpB h0 h1 hL hcap => ?_⟩
  · obtain ⟨hemb, hext⟩ := lsbr_roundtrip flat payload rate hfB hpB h0 h1 hL hcap
    exact ⟨_, hemb, hext⟩
  · obtain ⟨hemb, hext⟩ := lsbm_roundtrip flat payload rate pol hfB hpB h0 h1 hL hcap
    exact ⟨_, hemb, hext⟩
  · obtain ⟨hemb, hext⟩ := hamming_roundtrip flat payload rate hfB hpB h0 h1 hL hcap
    exact ⟨_, hemb, hext⟩

/-- Witness for C1: a 64-byte zero carrier (240 bytes for Hamming), the
empty payload, rate 1, and for LSB Matching the all-plus polarity draw. -/
theorem C1_round_trip_witness :
    64 + 8 * ([] : List ℕ).length ≤ lsbCapacityBits flatW64.length 1 ∧
    64 + 8 * ([] : List ℕ).length ≤ hammingCapacityBits flatW240.length 1 ∧
    (∃ out, lsbrEmbed flatW64 [] 1 = .ok out ∧ lsbrExtract out 1 = .ok []) ∧
    (∃ out, lsbmEmbed flatW64 [] 1 polW = .ok out ∧ lsbmExtract out 1 = .ok []) ∧
    (∃ out, hammingEmbed flatW240 [] 1 = .ok out ∧ hammingExtract out 1 = .ok []) := by
  have hc64 : 64 + 8 * ([] : List ℕ).length ≤ lsbCapacityBits flatW64.length 1 := by
    rw [lsbCapacityBits_one]
    simp [flatW64]
  have hc240 : 64 + 8 * ([] : List ℕ).length ≤ hammingCapacityBits flatW240.length 1 := by
    rw [hammingCapacityBits, hammingUsableBlocks_one]
    simp [flatW240]
  exact ⟨hc64, hc240,
    C1_round_trip.1 flatW64 [] 1 (byteList_replicate_zero _)
      (fun b hb => absurd hb (List.not_mem_nil b)) (by norm_num) (by norm_num)
      (by norm_num) hc64,
    C1_round_trip.2.1 flatW64 [] 1 polW (byteList_replicate_zero _)
      (fun b hb => absurd hb (List.not_mem_nil b)) (by norm_num) (by norm_num)
      (by norm_num) hc64,
    C1_round_trip.2.2 flatW240 [] 1 (byteList_replicate_zero _)
      (fun b hb => absurd hb (List.not_mem_nil b)) (by norm_num) (by norm_num)
      (by norm_num) hc240⟩

/-- C2: Hamming single-flip law.  For every 15-byte carrier block and every
target nibble `m`, the embed step leaves the block unchanged when its
syndrome already equals `m`, otherwise it changes exactly the byte at
0-indexed position `v - 1` (`v` = syndrome XOR `m`, nonzero) and only by
flipping its bit 0; recomputing the syndrome of the result, as the Hamming
extract does, returns exactly `m`. -/
theorem C2_hamming_single_flip (block m : List ℕ) (hlen : block.length = 15)
    (hbB : ByteList block) (hm4 : m.length = 4) (hmb : BitList m) :
    (syndrome (coverBits block) = m → hammingEmbedBlock block m = block) ∧
    (syndrome (coverBits block) ≠ m →
      nibbleVal (List.zipWith (fun a b => a ^^^ b) (syndrome (coverBits block)) m) ≠ 0 ∧
      hammingEmbedBlock block m = block.set
        (nibbleVal (List.zipWith (fun a b => a ^^^ b) (syndrome (coverBits block)) m) - 1)
        (block.getD
          (nibbleVal (List.zipWith (fun a b => a ^^^ b) (syndrome (coverBits block)) m) - 1)
          0 ^^^ 1)) ∧
    syndrome (coverBits (hammingEmbedBlock block m)) = m := by
  refine ⟨?_, ?_, (hammingEmbedBlock_spec block m hlen hbB hm4 hmb).1⟩
  all_goals
    rcases m with _ | ⟨m0, m⟩; · simp at hm4
  all_goals
    rcases m with _ | ⟨m1, m⟩; · simp at hm4
  all_goals
    rcases m with _ | ⟨m2, m⟩; · simp at hm4
  all_goals
    rcases m with _ | ⟨m3, m⟩; · simp at hm4
  all_goals
    rcases m with _ | ⟨m4, m⟩
  case' cons.cons.cons.cons.cons => simp at hm4
  case' cons.cons.cons.cons.cons => simp at hm4
  all_goals {
    have hm0 : m0 < 2 := hmb m0 (by simp)
    have hm1 : m1 < 2 := hmb m1 (by simp)
    have hm2 : m2 < 2 := hmb m2 (by simp)
    have hm3 : m3 < 2 := hmb m3 (by simp)
    have hs0 : synBit 0 (coverBits block) < 2 := synBit_lt_two _ _
    have hs1 : synBit 1 (coverBits block) < 2 := synBit_lt_two _ _
    have hs2 : synBit 2 (coverBits block) < 2 := synBit_lt_two _ _
    have hs3 : synBit 3 (coverBits block) < 2 := synBit_lt_two _ _
    have hd := nibbleVal_digits
      (synBit 0 (coverBits block) ^^^ m0) (xor_bit_lt _ hs0 _ hm0)
      (synBit 1 (coverBits block) ^^^ m1) (xor_bit_lt _ hs1 _ hm1)
      (synBit 2 (coverBits block) ^^^ m2) (xor_bit_lt _ hs2 _ hm2)
      (synBit 3 (coverBits block) ^^^ m3) (xor_bit_lt _ hs3 _ hm3)
    have hzip : List.zipWith (fun a b => a ^^^ b) (syndrome (coverBits block))
        [m0, m1, m2, m3] =
        [synBit 0 (coverBits block) ^^^ m0, synBit 1 (coverBits block) ^^^ m1,
         synBit 2 (coverBits block) ^^^ m2, synBit 3 (coverBits block) ^^^ m3] := by
      rw [syndrome_eq]
      rfl
    have hkey : syndrome (coverBits block) = [m0, m1, m2, m3] ↔
        nibbleVal [synBit 0 (coverBits block) ^^^ m0, synBit 1 (coverBits block) ^^^ m1,
          synBit 2 (coverBits block) ^^^ m2, synBit 3 (coverBits block) ^^^ m3] = 0 := by
      rw [syndrome_eq, hd.2.1]
      constructor
      · intro hlist
        simp only [List.cons.injEq, and_true] at hlist
        rw [hlist.1, hlist.2.1, hlist.2.2.1, hlist.2.2.2]
        simp [Nat.xor_self]
      · intro hall
        rw [(xor_eq_zero_iff _ hs0 _ hm0).mp hall.1,
          (xor_eq_zero_iff _ hs1 _ hm1).mp hall.2.1,
          (xor_eq_zero_iff _ hs2 _ hm2).mp hall.2.2.1,
          (xor_eq_zero_iff _ hs3 _ hm3).mp hall.2.2.2]
    first
    | {
        intro hs
        rw [hammingEmbedBlock, hzip, if_pos (hkey.mp hs)]
      }
    | {
        intro hns
        have hv : nibbleVal [synBit 0 (coverBits block) ^^^ m0,
            synBit 1 (coverBits block) ^^^ m1, synBit 2 (coverBits block) ^^^ m2,
            synBit 3 (coverBits block) ^^^ m3] ≠ 0 :=
          fun h0 => hns (hkey.mpr h0)
        rw [hammingEmbedBlock, hzip]
        rw [if_neg hv]
        exact ⟨hv, rfl⟩
      }
  }

/-- Witness for C2: the all-zero 15-byte block with target nibble
`[1, 0, 0, 0]` (value 1, so byte 0 gets flipped). -/
theorem C2_hamming_single_flip_witness :
    (List.replicate 15 0 : List ℕ).length = 15 ∧
    syndrome (coverBits (hammingEmbedBlock (List.replicate 15 0) [1, 0, 0, 0])) =
      [1, 0, 0, 0] :=
  ⟨rfl, (C2_hamming_single_flip (List.replicate 15 0) [1, 0, 0, 0] rfl
    (byteList_replicate_zero _) rfl (by decide)).2.2⟩

/-- C3: LSB Matching boundary law.  On a successful embed, a carrier byte
whose bit 0 already equals the target frame bit (or that lies beyond the
frame) is unchanged; a mismatching byte changes by exactly ±1 so that its
new bit 0 equals the target; a byte valued 0 is never decremented (a
required flip makes it 1) and a byte valued 255 is never incremented (a
required flip makes it 254) — for every polarity-draw outcome, and every
output byte stays below 256 with no wraparound. -/
theorem C3_lsbm_boundary (flat payload : List ℕ) (rate : ℚ) (pol : ℕ → Bool)
    (out : List ℕ) (hfB : ByteList flat)
    (hok : lsbmEmbed flat payload rate pol = .ok out) :
    out.length = flat.length ∧
    ∀ i, i < flat.length →
      out.getD i 0 < 256 ∧
      (((bitsFromBytes (MAGIC_LSBM ++ le4 payload.length ++ payload)).length ≤ i ∨
          flat.getD i 0 &&& 1 =
            (bitsFromBytes (MAGIC_LSBM ++ le4 payload.length ++ payload)).getD i 0) →
        out.getD i 0 = flat.getD i 0) ∧
      (i < (bitsFromBytes (MAGIC_LSBM ++ le4 payload.length ++ payload)).length →
        flat.getD i 0 &&& 1 ≠
          (bitsFromBytes (MAGIC_LSBM ++ le4 payload.length ++ payload)).getD i 0 →
        (out.getD i 0 = flat.getD i 0 + 1 ∨ out.getD i 0 + 1 = flat.getD i 0) ∧
        out.getD i 0 &&& 1 =
          (bitsFromBytes (MAGIC_LSBM ++ le4 payload.length ++ payload)).getD i 0 ∧
        (flat.getD i 0 = 0 → out.getD i 0 = 1) ∧
        (flat.getD i 0 = 255 → out.getD i 0 = 254)) := by
  obtain ⟨hout, hcap, h0, h1, hL⟩ := lsbmEmbed_inv flat payload rate pol out hok
  subst hout
  refine ⟨lsbmApply_length _ _ _ _, fun i hi => ?_⟩
  obtain ⟨hmatch, hmismatch⟩ := lsbmApply_pointwise flat
    (bitsFromBytes (MAGIC_LSBM ++ le4 payload.length ++ payload)) pol 0 i hi
  have hb : flat.getD i 0 < 256 := byteList_getD flat i hi hfB
  refine ⟨?_, hmatch, fun hib hne => ?_⟩
  · by_cases hc : (bitsFromBytes (MAGIC_LSBM ++ le4 payload.length ++ payload)).length ≤ i
        ∨ flat.getD i 0 &&& 1 =
          (bitsFromBytes (MAGIC_LSBM ++ le4 payload.length ++ payload)).getD i 0
    · rw [hmatch hc]
      exact hb
    · push_neg at hc
      obtain ⟨plus, hp⟩ := hmismatch (by omega) hc.2
      rw [hp]
      exact (lsbmAdjust_spec plus _ hb).2.1
  · obtain ⟨plus, hp⟩ := hmismatch hib hne
    have hsp := lsbmAdjust_spec plus (flat.getD i 0) hb
    have htbit : (bitsFromBytes (MAGIC_LSBM ++ le4 payload.length ++ payload)).getD i 0
        < 2 := bitList_getD _ _ hib (bitsFromBytes_bits _)
    have ha1 : flat.getD i 0 &&& 1 < 2 := by
      have h2 : flat.getD i 0 &&& 1 ≤ 1 := Nat.and_le_right
      omega
    have hbitval : (bitsFromBytes (MAGIC_LSBM ++ le4 payload.length ++ payload)).getD i 0
        = (flat.getD i 0 &&& 1) ^^^ 1 := bit_neq_iff_xor_one _ ha1 _ htbit hne
    rw [hp]
    exact ⟨hsp.2.2.1, by rw [hsp.1, hbitval], fun h255 => (hsp.2.2.2.1 h255 : _),
      fun h255 => hsp.2.2.2.2 h255⟩

/-- Witness for C3: carrier `255 :: 0 :: (62 × 7)`, empty payload, rate 1.
The first frame bit is 0 and the second is 1, so the leading 255 needs a
flip (and becomes 254) and the following 0 needs a flip (and becomes 1),
under the all-plus polarity draw. -/
theorem C3_lsbm_boundary_witness :
    flatW3.getD 0 0 = 255 ∧ outW3.getD 0 0 = 254 ∧
    flatW3.getD 1 0 = 0 ∧ outW3.getD 1 0 = 1 := by
  have hcap : 64 + 8 * ([] : List ℕ).length ≤ lsbCapacityBits flatW3.length 1 := by
    rw [lsbCapacityBits_one]
    simp [flatW3]
  have hok : lsbmEmbed flatW3 [] 1 polW = .ok outW3 :=
    lsbmEmbed_ok flatW3 [] 1 polW (by norm_num) (by norm_num) (by norm_num) hcap
  have happ := C3_lsbm_boundary flatW3 [] 1 polW outW3 (by decide) hok
  have h0 := (happ.2 0 (by simp [flatW3])).2.2 (by decide) (by decide)
  have h1 := (happ.2 1 (by simp [flatW3])).2.2 (by decide) (by decide)
  exact ⟨rfl, h0.2.2.2 rfl, rfl, by
    have := h1.2.2.1 rfl
    simpa using this⟩

/-- C4: capacity formula with per-method rounding.  For valid rates and
frameable payloads, the LSB engines raise CapacityExceeded exactly when the
framed bit count exceeds `int(len(flat) * rate)`, and the Hamming engine
exactly when it exceeds `int((len // 15) * rate) * 4`.  The trailing
conjuncts exhibit the differing rounding at fractional rates: on a 15-byte
carrier at rate 1/2 the LSB capacity is 7 bits while the Hamming capacity
is 0, and on a 30-byte carrier at rate 9/10 the Hamming block-level
truncation gives 4 bits where truncating the common formula
`units * bitsPerUnit * rate` at bit level would give 7. -/
theorem C4_capacity_formula :
    (∀ flat payload : List ℕ, ∀ rate : ℚ, 0 ≤ rate → rate ≤ 1 →
      payload.length < 2 ^ 32 →
      (lsbrEmbed flat payload rate = .error .capacityExceeded ↔
        lsbCapacityBits flat.length rate < 64 + 8 * payload.length)) ∧
    (∀ flat payload : List ℕ, ∀ rate : ℚ, ∀ pol : ℕ → Bool, 0 ≤ rate → rate ≤ 1 →
      payload.length < 2 ^ 32 →
      (lsbmEmbed flat payload rate pol = .error .capacityExceeded ↔
        lsbCapacityBits flat.length rate < 64 + 8 * payload.length)) ∧
    (∀ flat payload : List ℕ, ∀ rate : ℚ, 0 ≤ rate → rate ≤ 1 →
      payload.length < 2 ^ 32 →
      (hammingEmbed flat payload rate = .error .capacityExceeded ↔
        hammingCapacityBits flat.length rate < 64 + 8 * payload.length)) ∧
    lsbCapacityBits 15 (1 / 2) = 7 ∧
    hammingCapacityBits 15 (1 / 2) = 0 ∧
    hammingCapacityBits 30 (9 / 10) = 4 ∧
    intFloor (((30 / 15 * 4 : ℕ) : ℚ) * (9 / 10)) = 7 := by
  refine ⟨fun flat payload rate h0 h1 hL => ?_,
    fun flat payload rate pol h0 h1 hL => ?_,
    fun flat payload rate h0 h1 hL => ?_, ?_, ?_, ?_, ?_⟩
  · by_cases hcap : lsbCapacityBits flat.length rate < 64 + 8 * payload.length
    · exact iff_of_true (lsbrEmbed_capacity_error flat payload rate h0 h1 hL hcap) hcap
    · refine iff_of_false (fun hcontra => ?_) hcap
      rw [lsbrEmbed_ok flat payload rate h0 h1 hL (by omega)] at hcontra
      exact absurd hcontra (by simp)
  · by_cases hcap : lsbCapacityBits flat.length rate < 64 + 8 * payload.length
    · exact iff_of_true
        (lsbmEmbed_capacity_error flat payload rate pol h0 h1 hL hcap) hcap
    · refine iff_of_false (fun hcontra => ?_) hcap
      rw [lsbmEmbed_ok flat payload rate pol h0 h1 hL (by omega)] at hcontra
      exact absurd hcontra (by simp)
  · by_cases hcap : hammingCapacityBits flat.length rate < 64 + 8 * payload.length
    · exact iff_of_true
        (hammingEmbed_capacity_error flat payload rate h0 h1 hL hcap) hcap
    · refine iff_of_false (fun hcontra => ?_) hcap
      rw [hammingEmbed_ok flat payload rate h0 h1 hL (by omega)] at hcontra
      exact absurd hcontra (by simp)
  · rw [lsbCapacityBits]
    exact intFloor_eq _ 7 (by norm_num) (by norm_num)
  · have husable : hammingUsableBlocks 15 (1 / 2) = 0 := by
      rw [hammingUsableBlocks]
      exact intFloor_eq _ 0 (by norm_num) (by norm_num)
    rw [hammingCapacityBits, husable]
  · have husable : hammingUsableBlocks 30 (9 / 10) = 1 := by
      rw [hammingUsableBlocks]
      exact intFloor_eq _ 1 (by norm_num) (by norm_num)
    rw [hammingCapacityBits, husable]
  · exact intFloor_eq _ 7 (by norm_num) (by norm_num)

/-- Witness for C4: on the empty carrier at rate 1 every engine's framed
bit count exceeds the (zero) capacity, and the characterisations yield
CapacityExceeded. -/
theorem C4_capacity_formula_witness :
    lsbCapacityBits ([] : List ℕ).length 1 < 64 + 8 * ([] : List ℕ).length ∧
    hammingCapacityBits ([] : List ℕ).length 1 < 64 + 8 * ([] : List ℕ).length ∧
    lsbrEmbed [] [] 1 = .error .capacityExceeded ∧
    lsbmEmbed [] [] 1 polW = .error .capacityExceeded ∧
    hammingEmbed [] [] 1 = .error .capacityExceeded := by
  have hc : lsbCapacityBits ([] : List ℕ).length 1 < 64 + 8 * ([] : List ℕ).length := by
    rw [lsbCapacityBits_one]
    simp
  have hch : hammingCapacityBits ([] : List ℕ).length 1 <
      64 + 8 * ([] : List ℕ).length := by
    rw [hammingCapacityBits, hammingUsableBlocks_one]
    simp
  exact ⟨hc, hch,
    (C4_capacity_formula.1 [] [] 1 (by norm_num) (by norm_num) (by norm_num)).mpr hc,
    (C4_capacity_formula.2.1 [] [] 1 polW (by norm_num) (by norm_num)
      (by norm_num)).mpr hc,
    (C4_capacity_formula.2.2.1 [] [] 1 (by norm_num) (by norm_num)
      (by norm_num)).mpr hch⟩

/-- C5: non-destructive capacity check.  In the state-passing rendering of
the three embeds (caller's carrier plus a not-yet-allocated output buffer),
the carrier component is never modified, and when CapacityExceeded is
raised no output buffer has been produced: the check precedes every write. -/
theorem C5_atomic_capacity_check (flat payload : List ℕ) (rate : ℚ)
    (pol : ℕ → Bool) :
    ((lsbrEmbedSt ⟨flat, none⟩ payload rate).2.flat = flat ∧
      ((lsbrEmbedSt ⟨flat, none⟩ payload rate).1 = .error .capacityExceeded →
        (lsbrEmbedSt ⟨flat, none⟩ payload rate).2.stego = none)) ∧
    ((lsbmEmbedSt ⟨flat, none⟩ payload rate pol).2.flat = flat ∧
      ((lsbmEmbedSt ⟨flat, none⟩ payload rate pol).1 = .error .capacityExceeded →
        (lsbmEmbedSt ⟨flat, none⟩ payload rate pol).2.stego = none)) ∧
    ((hammingEmbedSt ⟨flat, none⟩ payload rate).2.flat = flat ∧
      ((hammingEmbedSt ⟨flat, none⟩ payload rate).1 = .error .capacityExceeded →
        (hammingEmbedSt ⟨flat, none⟩ payload rate).2.stego = none)) := by
  refine ⟨?_, ?_, ?_⟩
  · rw [lsbrEmbedSt]
    split_ifs with h1 h2 h3
    · exact ⟨rfl, fun _ => rfl⟩
    · exact ⟨rfl, fun _ => rfl⟩
    · exact ⟨rfl, fun hcon => by simp at hcon⟩
    · exact ⟨rfl, fun _ => rfl⟩
  · rw [lsbmEmbedSt]
    split_ifs with h1 h2 h3
    · exact ⟨rfl, fun _ => rfl⟩
    · exact ⟨rfl, fun _ => rfl⟩
    · exact ⟨rfl, fun hcon => by simp at hcon⟩
    · exact ⟨rfl, fun _ => rfl⟩
  · by_cases h1 : ¬(0 ≤ rate ∧ rate ≤ 1)
    · rw [hammingEmbedSt, if_pos h1]
      exact ⟨rfl, fun _ => rfl⟩
    · cases h4 : toBytesLE4 payload.length with
      | error e =>
          rw [hammingEmbedSt, if_neg h1, h4]
          exact ⟨rfl, fun _ => rfl⟩
      | ok hdr =>
          by_cases hc : hammingUsableBlocks
              (⟨flat, none⟩ : EmbedState).flat.length rate * 4 <
              (bitsFromBytes (MAGIC_HAMM ++ hdr ++ payload)).length
          · have he : hammingEmbedSt ⟨flat, none⟩ payload rate =
                (.error .capacityExceeded, ⟨flat, none⟩) := by
              rw [hammingEmbedSt, if_neg h1, h4]
              show (if hammingUsableBlocks
                    (⟨flat, none⟩ : EmbedState).flat.length rate * 4 <
                    (bitsFromBytes (MAGIC_HAMM ++ hdr ++ payload)).length then
                  ((.error .capacityExceeded : Except StegoError Unit),
                    (⟨flat, none⟩ : EmbedState))
                else _) = _
              rw [if_pos hc]
            rw [he]
            exact ⟨rfl, fun _ => rfl⟩
          · have he : hammingEmbedSt ⟨flat, none⟩ payload rate =
                (.ok (), { flat := flat, stego := some (hammingEmbedBlocks flat
                  ((toNibbles (hammingPad
                      (bitsFromBytes (MAGIC_HAMM ++ hdr ++ payload)))).take
                    (hammingUsableBlocks flat.length rate))) }) := by
              rw [hammingEmbedSt, if_neg h1, h4]
              show (if hammingUsableBlocks
                    (⟨flat, none⟩ : EmbedState).flat.length rate * 4 <
                    (bitsFromBytes (MAGIC_HAMM ++ hdr ++ payload)).length then
                  ((.error .capacityExceeded : Except StegoError Unit),
                    (⟨flat, none⟩ : EmbedState))
                else _) = _
              rw [if_neg hc]
            rw [he]
            exact ⟨rfl, fun hcon => by simp at hcon⟩

/-- Witness for C5: the empty carrier at rate 1; each engine raises
CapacityExceeded and the state keeps the carrier with no output buffer. -/
theorem C5_atomic_capacity_check_witness :
    (lsbrEmbedSt ⟨[], none⟩ [] 1).1 = .error .capacityExceeded ∧
    (lsbrEmbedSt ⟨[], none⟩ [] 1).2.flat = [] ∧
    (lsbrEmbedSt ⟨[], none⟩ [] 1).2.stego = none ∧
    (lsbmEmbedSt ⟨[], none⟩ [] 1 polW).1 = .error .capacityExceeded ∧
    (lsbmEmbedSt ⟨[], none⟩ [] 1 polW).2.stego = none ∧
    (hammingEmbedSt ⟨[], none⟩ [] 1).1 = .error .capacityExceeded ∧
    (hammingEmbedSt ⟨[], none⟩ [] 1).2.stego = none := by
  have hr : (lsbrEmbedSt ⟨[], none⟩ [] 1).1 = .error .capacityExceeded := by
    rw [lsbrEmbedSt, if_neg (by norm_num), if_neg (by norm_num),
      if_pos (by rw [lsbCapacityBits_one, frame_length MAGIC_LSBR [] rfl]; simp)]
  have hm : (lsbmEmbedSt ⟨[], none⟩ [] 1 polW).1 = .error .capacityExceeded := by
    rw [lsbmEmbedSt, if_neg (by norm_num), if_neg (by norm_num),
      if_pos (by rw [lsbCapacityBits_one, frame_length MAGIC_LSBM [] rfl]; simp)]
  have hh : (hammingEmbedSt ⟨[], none⟩ [] 1).1 = .error .capacityExceeded := by
    rw [hammingEmbedSt, if_neg (by norm_num), toBytesLE4_ok _ (by simp)]
    show ((if hammingUsableBlocks (⟨[], none⟩ : EmbedState).flat.length 1 * 4 <
          (bitsFromBytes (MAGIC_HAMM ++ le4 ([] : List ℕ).length ++ [])).length then
        ((.error .capacityExceeded : Except StegoError Unit), (⟨[], none⟩ : EmbedState))
      else _).1 : Except StegoError Unit) = .error .capacityExceeded
    rw [if_pos (by rw [hammingUsableBlocks_one, frame_length MAGIC_HAMM [] rfl]; simp)]
  have hC5 := C5_atomic_capacity_check [] [] 1 polW
  exact ⟨hr, hC5.1.1, hC5.1.2 hr, hm, hC5.2.1.2 hm, hh, hC5.2.2.2 hh⟩

/-- C6: a payload of 2³² bytes or more makes every engine's frame-building
step fail with PayloadTooLarge (for the two LSB engines via the explicit
length guard; for the Hamming engine via the overflowing 4-byte conversion
of the length). -/
theorem C6_payload_too_large (flat payload : List ℕ) (rate : ℚ) (pol : ℕ → Bool)
    (h0 : 0 ≤ rate) (h1 : rate ≤ 1) (hL : 2 ^ 32 ≤ payload.length) :
    lsbrEmbed flat payload rate = .error .payloadTooLarge ∧
    lsbmEmbed flat payload rate pol = .error .payloadTooLarge ∧
    hammingEmbed flat payload rate = .error .payloadTooLarge := by
  refine ⟨?_, ?_, ?_⟩
  · rw [lsbrEmbed, if_neg (not_not_intro ⟨h0, h1⟩), if_pos hL]
  · rw [lsbmEmbed, if_neg (not_not_intro ⟨h0, h1⟩), if_pos hL]
  · rw [hammingEmbed, if_neg (not_not_intro ⟨h0, h1⟩), toBytesLE4, if_pos hL]

/-- A payload one byte past the 32-bit length header's range. -/
def payloadBig : List ℕ := List.replicate (2 ^ 32) 0

theorem payloadBig_length : payloadBig.length = 2 ^ 32 := by
  rw [payloadBig, List.length_replicate]

/-- Witness for C6: a 2³²-byte zero payload fails all three engines. -/
theorem C6_payload_too_large_witness :
    2 ^ 32 ≤ payloadBig.length ∧
    lsbrEmbed [] payloadBig 1 = .error .payloadTooLarge ∧
    lsbmEmbed [] payloadBig 1 polW = .error .payloadTooLarge ∧
    hammingEmbed [] payloadBig 1 = .error .payloadTooLarge := by
  have hlen : 2 ^ 32 ≤ payloadBig.length := by rw [payloadBig_length]
  obtain ⟨ha, hb, hc⟩ := C6_payload_too_large [] payloadBig 1 polW
    (by norm_num) (by norm_num) hlen
  exact ⟨hlen, ha, hb, hc⟩

/-- C7: magic isolation.  Extracting an LSB-Matching-embedded carrier with
the Hamming engine at rate 1 raises MagicMismatch whenever the carrier has
at least 16 full 15-byte blocks (so the Hamming header-truncation check
passes): the first block's cover bits are the first 15 bits of the LSBM
magic, whose syndrome `[0, 0, 0, 1]` differs from the first nibble
`[0, 1, 0, 0]` of the HAMM magic — for every payload and every
polarity-draw outcome. -/
theorem C7_magic_isolation (flat payload : List ℕ) (rate : ℚ) (pol : ℕ → Bool)
    (out : List ℕ) (hfB : ByteList flat) (h240 : 240 ≤ flat.length)
    (hok : lsbmEmbed flat payload rate pol = .ok out) :
    hammingExtract out 1 = .error .magicMismatch := by
  obtain ⟨hout, hcap, h0, h1, hL⟩ := lsbmEmbed_inv flat payload rate pol out hok
  subst hout
  have hblen : (bitsFromBytes (MAGIC_LSBM ++ le4 payload.length ++ payload)).length =
      64 + 8 * payload.length := frame_length MAGIC_LSBM payload rfl
  have hle : (bitsFromBytes (MAGIC_LSBM ++ le4 payload.length ++ payload)).length ≤
      flat.length := by
    have := lsbCapacityBits_le flat.length rate h1
    omega
  have hmap := lsbmApply_map_lsb flat
    (bitsFromBytes (MAGIC_LSBM ++ le4 payload.length ++ payload)) pol 0 hfB
    (bitsFromBytes_bits _) hle
  have houtlen :
      (lsbmApply flat (bitsFromBytes (MAGIC_LSBM ++ le4 payload.length ++ payload))
        pol 0).length = flat.length := lsbmApply_length _ _ _ _
  have hA15 : (bitsFromBytes (MAGIC_LSBM ++ le4 payload.length ++ payload)).take 15 =
      (bitsFromBytes MAGIC_LSBM).take 15 := by
    rw [frame_split, List.take_append_eq_append_take,
      show 15 - (bitsFromBytes MAGIC_LSBM).length = 0 from by
        rw [bitsFromBytes_length]
        rfl]
    simp
  have hcover : coverBits ((lsbmApply flat
      (bitsFromBytes (MAGIC_LSBM ++ le4 payload.length ++ payload)) pol 0).take 15) =
      [0, 1, 0, 0, 1, 1, 0, 0, 0, 1, 0, 1, 0, 0, 1] := by
    rw [coverBits, List.map_take, hmap, List.take_append_eq_append_take,
      show (15 : ℕ) - (bitsFromBytes (MAGIC_LSBM ++ le4 payload.length ++
        payload)).length = 0 from by omega]
    rw [List.take_zero, List.append_nil, hA15]
    decide
  have husable : hammingUsableBlocks (lsbmApply flat
      (bitsFromBytes (MAGIC_LSBM ++ le4 payload.length ++ payload)) pol 0).length 1 =
      flat.length / 15 := by
    rw [houtlen, hammingUsableBlocks_one]
  have h16 : 16 ≤ flat.length / 15 := by omega
  rw [hammingExtract, if_neg (by norm_num)]
  rw [if_neg (by
    rw [readSyndromes_length, husable]
    omega)]
  rw [if_pos ?_]
  intro heq
  obtain ⟨k, hk⟩ : ∃ k, hammingUsableBlocks (lsbmApply flat
      (bitsFromBytes (MAGIC_LSBM ++ le4 payload.length ++ payload)) pol 0).length 1 =
      k + 1 := ⟨flat.length / 15 - 1, by omega⟩
  rw [hk] at heq
  simp only [readSyndromes] at heq
  rw [hcover] at heq
  have hval : (List.take 32 (syndrome [0, 1, 0, 0, 1, 1, 0, 0, 0, 1, 0, 1, 0, 0, 1] ++
      readSyndromes ((lsbmApply flat (bitsFromBytes
        (MAGIC_LSBM ++ le4 payload.length ++ payload)) pol 0).drop 15) k)).getD 1 0 =
      MAGIC_BITS_HAMM.getD 1 0 := by rw [heq]
  rw [getD_take _ _ _ _ (by omega), getD_append_left _ _ _ _
    (by rw [syndrome_length]; omega)] at hval
  exact absurd hval (by decide)

/-- Witness for C7: a 240-byte zero carrier, empty payload, rate 1, the
all-plus polarity draw. -/
theorem C7_magic_isolation_witness :
    240 ≤ flatW240.length ∧
    hammingExtract (lsbmApply flatW240
      (bitsFromBytes (MAGIC_LSBM ++ le4 ([] : List ℕ).length ++ [])) polW 0) 1 =
      .error .magicMismatch := by
  have h240 : 240 ≤ flatW240.length := by simp [flatW240]
  have hcap : 64 + 8 * ([] : List ℕ).length ≤ lsbCapacityBits flatW240.length 1 := by
    rw [lsbCapacityBits_one]
    simp [flatW240]
  exact ⟨h240, C7_magic_isolation flatW240 [] 1 polW _
    (byteList_replicate_zero _) h240
    (lsbmEmbed_ok flatW240 [] 1 polW (by norm_num) (by norm_num) (by norm_num) hcap)⟩

/-- C8: Hamming usable-region frame law.  When the Hamming embed succeeds,
every carrier byte at an index at or beyond `usable_blocks * 15` is
unchanged in the output, and the Hamming extract reads only bytes below
that bound: two carriers of the same length agreeing below it extract
identically. -/
theorem C8_hamming_usable_region :
    (∀ flat payload : List ℕ, ∀ rate : ℚ, ∀ out : List ℕ, ByteList flat →
      hammingEmbed flat payload rate = .ok out →
      out.length = flat.length ∧
      ∀ i, hammingUsableBlocks flat.length rate * 15 ≤ i →
        out.getD i 0 = flat.getD i 0) ∧
    (∀ flat flat' : List ℕ, ∀ rate : ℚ, flat.length = flat'.length →
      flat.take (hammingUsableBlocks flat.length rate * 15) =
        flat'.take (hammingUsableBlocks flat.length rate * 15) →
      hammingExtract flat rate = hammingExtract flat' rate) := by
  constructor
  · intro flat payload rate out hfB hok
    obtain ⟨hout, hcap, h0, h1, hL⟩ := hammingEmbed_inv flat payload rate out hok
    have hflen : (bitsFromBytes (MAGIC_HAMM ++ le4 payload.length ++ payload)).length =
        64 + 8 * payload.length := frame_length MAGIC_HAMM payload rfl
    have hmod : (bitsFromBytes
        (MAGIC_HAMM ++ le4 payload.length ++ payload)).length % 4 = 0 := by omega
    rw [hammingPad_of_aligned _ hmod] at hout
    have hcnt : (toNibbles (bitsFromBytes
        (MAGIC_HAMM ++ le4 payload.length ++ payload))).length =
        (64 + 8 * payload.length) / 4 := by
      rw [toNibbles_length, hflen]
    have hns : ((toNibbles (bitsFromBytes
        (MAGIC_HAMM ++ le4 payload.length ++ payload))).take
          (hammingUsableBlocks flat.length rate)).length ≤
        hammingUsableBlocks flat.length rate := by
      rw [List.length_take]
      omega
    have hwf : ∀ n ∈ (toNibbles (bitsFromBytes
        (MAGIC_HAMM ++ le4 payload.length ++ payload))).take
          (hammingUsableBlocks flat.length rate), n.length = 4 ∧ BitList n :=
      fun n hn => ⟨toNibbles_mem_length _ n (List.mem_of_mem_take hn),
        toNibbles_mem_bits _ (bitsFromBytes_bits _) n (List.mem_of_mem_take hn)⟩
    have hub := hammingUsableBlocks_le flat.length rate h1
    have hdm : flat.length / 15 * 15 ≤ flat.length := Nat.div_mul_le_self _ _
    have h15 : 15 * ((toNibbles (bitsFromBytes
        (MAGIC_HAMM ++ le4 payload.length ++ payload))).take
          (hammingUsableBlocks flat.length rate)).length ≤ flat.length := by
      rw [List.length_take]
      omega
    obtain ⟨hlen, _, hdrop, _⟩ := hammingEmbedBlocks_spec _ flat hwf h15 hfB
    subst hout
    refine ⟨hlen, fun i hi => ?_⟩
    have hki : 15 * ((toNibbles (bitsFromBytes
        (MAGIC_HAMM ++ le4 payload.length ++ payload))).take
          (hammingUsableBlocks flat.length rate)).length ≤ i := by
      rw [List.length_take]
      omega
    have h1' := congrArg (fun l => l.getD (i - 15 * ((toNibbles (bitsFromBytes
        (MAGIC_HAMM ++ le4 payload.length ++ payload))).take
          (hammingUsableBlocks flat.length rate)).length) 0) hdrop
    simp only [getD_drop] at h1'
    rwa [show 15 * ((toNibbles (bitsFromBytes
        (MAGIC_HAMM ++ le4 payload.length ++ payload))).take
          (hammingUsableBlocks flat.length rate)).length +
        (i - 15 * ((toNibbles (bitsFromBytes
          (MAGIC_HAMM ++ le4 payload.length ++ payload))).take
            (hammingUsableBlocks flat.length rate)).length) = i from by omega] at h1'
  · intro flat flat' rate hlen htake
    have hrs : readSyndromes flat (hammingUsableBlocks flat.length rate) =
        readSyndromes flat' (hammingUsableBlocks flat.length rate) := by
      apply readSyndromes_congr
      rwa [Nat.mul_comm (hammingUsableBlocks flat.length rate) 15] at htake
    simp only [hammingExtract]
    rw [← hlen, ← hrs]

/-- Witness for C8: a 250-byte zero carrier (16 usable blocks, bound 240)
and a variant differing only at index 245. -/
theorem C8_hamming_usable_region_witness :
    hammingUsableBlocks flatW250.length 1 * 15 ≤ 245 ∧
    (∀ out, hammingEmbed flatW250 [] 1 = .ok out →
      out.getD 245 0 = flatW250.getD 245 0) ∧
    flatW250.length = flatW250'.length ∧
    hammingExtract flatW250 1 = hammingExtract flatW250' 1 := by
  have hub : hammingUsableBlocks flatW250.length 1 = 16 := by
    rw [hammingUsableBlocks_one]
    rfl
  refine ⟨by rw [hub]; omega, fun out hok => ?_, by rfl, ?_⟩
  · exact (C8_hamming_usable_region.1 flatW250 [] 1 out
      (byteList_replicate_zero _) hok).2 245 (by rw [hub]; omega)
  · exact C8_hamming_usable_region.2 flatW250 flatW250' 1 (by rfl)
      (by rw [hub]; decide)

/-- C9 counterexample: at rate 0 (which passes the closed-at-0 rate check)
a payload of 2³² bytes makes LSB Replacement fail with PayloadTooLarge —
not CapacityExceeded as the claim asserts for every payload. -/
theorem C9_rate_zero_counterexample :
    lsbrEmbed [] payloadBig 0 ≠ .error .capacityExceeded := by
  have h : lsbrEmbed [] payloadBig 0 = .error .payloadTooLarge := by
    rw [lsbrEmbed, if_neg (by norm_num), if_pos (le_of_eq payloadBig_length.symm)]
  rw [h]
  intro hcon
  injection hcon with h2
  exact absurd h2 (by decide)

/-- C9 (amended): rate 0 passes the rate validation, and every engine then
raises CapacityExceeded for every carrier and every payload of length
below 2³² (including the empty payload); payloads of 2³² bytes or more
fail earlier with PayloadTooLarge. -/
theorem C9_rate_zero_amended (flat payload : List ℕ) (pol : ℕ → Bool)
    (hL : payload.length < 2 ^ 32) :
    lsbrEmbed flat payload 0 = .error .capacityExceeded ∧
    lsbmEmbed flat payload 0 pol = .error .capacityExceeded ∧
    hammingEmbed flat payload 0 = .error .capacityExceeded := by
  refine ⟨lsbrEmbed_capacity_error flat payload 0 le_rfl zero_le_one hL ?_,
    lsbmEmbed_capacity_error flat payload 0 pol le_rfl zero_le_one hL ?_,
    hammingEmbed_capacity_error flat payload 0 le_rfl zero_le_one hL ?_⟩
  · rw [lsbCapacityBits_zero]
    omega
  · rw [lsbCapacityBits_zero]
    omega
  · rw [hammingCapacityBits, hammingUsableBlocks_zero]
    omega

/-- Witness for C9: the empty carrier and the empty payload at rate 0. -/
theorem C9_rate_zero_witness :
    ([] : List ℕ).length < 2 ^ 32 ∧
    lsbrEmbed [] [] 0 = .error .capacityExceeded ∧
    lsbmEmbed [] [] 0 polW = .error .capacityExceeded ∧
    hammingEmbed [] [] 0 = .error .capacityExceeded := by
  obtain ⟨ha, hb, hc⟩ := C9_rate_zero_amended [] [] polW (by norm_num)
  exact ⟨by norm_num, ha, hb, hc⟩

/-- C10: the Hamming nibble padding is unreachable.  Whenever the 4-byte
length conversion succeeds, the framed bit stream's length is a multiple
of 4 (indeed of 8), so the zero-padding branch is the identity and the
nibble count is exactly the bit count divided by 4. -/
theorem C10_padding_unreachable (payload header : List ℕ)
    (h : toBytesLE4 payload.length = .ok header) :
    (bitsFromBytes (MAGIC_HAMM ++ header ++ payload)).length % 4 = 0 ∧
    hammingPad (bitsFromBytes (MAGIC_HAMM ++ header ++ payload)) =
      bitsFromBytes (MAGIC_HAMM ++ header ++ payload) ∧
    (toNibbles (hammingPad (bitsFromBytes (MAGIC_HAMM ++ header ++ payload)))).length =
      (bitsFromBytes (MAGIC_HAMM ++ header ++ payload)).length / 4 := by
  have hhdr : header = le4 payload.length := by
    rw [toBytesLE4] at h
    split_ifs at h
    simpa using h.symm
  subst hhdr
  have hmod : (bitsFromBytes
      (MAGIC_HAMM ++ le4 payload.length ++ payload)).length % 4 = 0 := by
    rw [frame_length MAGIC_HAMM payload rfl]
    omega
  exact ⟨hmod, hammingPad_of_aligned _ hmod, by
    rw [hammingPad_of_aligned _ hmod, toNibbles_length]⟩

/-- Witness for C10: the empty payload. -/
theorem C10_padding_unreachable_witness :
    toBytesLE4 ([] : List ℕ).length = .ok (le4 ([] : List ℕ).length) ∧
    hammingPad (bitsFromBytes (MAGIC_HAMM ++ le4 ([] : List ℕ).length ++ [])) =
      bitsFromBytes (MAGIC_HAMM ++ le4 ([] : List ℕ).length ++ []) := by
  have h := toBytesLE4_ok ([] : List ℕ).length (by norm_num)
  exact ⟨h, (C10_padding_unreachable [] (le4 ([] : List ℕ).length) h).2.1⟩

end StegoLab
